import Mathlib

/-!
# HTTP-Server: request reader, request tokenizer and connection handler

A shallow embedding of `src/interact.h` (`read_from`, `analyze_request`, `say_to`,
`send_reply`, `process_connection`) together with the part of the C library the
tokenizer relies on (`strspn`, `strcspn`, `strtok_r`).

Modelling conventions.

* A `char` buffer is a `List Char`; a `char *` into it is the offset from the start
  of the buffer, and a pointer that may be `NULL` is an `Option Nat`.
* The tokenizer is destructive: every `strtok_r` call returns the updated buffer,
  and the fields of a request are offsets into the final buffer, read back with
  `cstr`.
* `int` values are modelled in `Int`.  As soon as `recv` never returns more than it was
  asked for, every value computed by `read_from` stays within `[0, len]` (this is the
  bounds theorem of the line reader), so no `int` overflow can occur there.
* The environment (results of `recv`, `send` and `malloc`) is passed explicitly.
* The array `infos[256]` is modelled by the list of the stores made into it, each with
  its slot index, so that a store past the end is visible; `infos_at` gives what a slot
  holds after these stores.
-/

set_option autoImplicit false

namespace HttpServer

/-! ## C strings in a buffer -/

/-- The string terminator `'\0'`. -/
def NUL : Char := Char.ofNat 0

/-- A buffer of `char`. -/
abbrev Mem := List Char

/-- The char stored at offset `p` (offsets past the modelled buffer read as `'\0'`). -/
def charAt (mem : Mem) (p : Nat) : Char := mem.getD p NUL

/-- The C string that starts at offset `p`: the chars up to the first `'\0'`. -/
def cstr (mem : Mem) (p : Nat) : List Char := (mem.drop p).takeWhile (fun c => c != NUL)

/-- `strspn(s, accept)`: length of the initial segment of the C string `s` made of
chars of `accept`. -/
def strspn : List Char → List Char → Nat
  | [], _ => 0
  | c :: cs, accept => if c ≠ NUL ∧ c ∈ accept then strspn cs accept + 1 else 0

/-- `strcspn(s, reject)`: length of the initial segment of the C string `s` made of
chars not in `reject`. -/
def strcspn : List Char → List Char → Nat
  | [], _ => 0
  | c :: cs, reject => if c ≠ NUL ∧ c ∉ reject then strcspn cs reject + 1 else 0

/-- Result of one `strtok_r` call: the buffer after the call, the returned token
pointer (`none` is `NULL`) and the value stored in `*save_ptr`. -/
structure Tok where
  mem : Mem
  tok : Option Nat
  save : Nat
deriving DecidableEq, Repr

/-- `strtok_r(s, delim, &save)` of the C library.  With `s = none` (`NULL`) scanning
resumes at `save`.  Leading delimiters are skipped; if nothing is left the result is
`NULL`; otherwise the token runs up to the next delimiter, which is overwritten with
`'\0'`, and `save` is set right after it (or on the terminator when the token ends the
string). -/
def strtok_r (mem : Mem) (s : Option Nat) (delim : List Char) (save : Nat) : Tok :=
  let s0 := s.getD save
  let s1 := s0 + strspn (mem.drop s0) delim
  if charAt mem s1 = NUL then ⟨mem, none, s1⟩
  else
    let e := s1 + strcspn (mem.drop s1) delim
    if charAt mem e = NUL then ⟨mem, some s1, e⟩
    else ⟨mem.set e NUL, some s1, e + 1⟩

/-! ## The request model (`information`, `http_request`) -/

/-- One header: `key` is `strtok_r(..) + 1` (`none` when `strtok_r` returned `NULL`,
so that the C pointer is the invalid `NULL + 1`), `value` may be `NULL`. -/
structure information where
  key : Option Nat
  value : Option Nat
deriving DecidableEq, Repr

/-- The parsed request.  `infos` lists, in program order, every store into the array
`infos[256]` as a pair (slot index, entry stored). -/
structure http_request where
  command : Nat
  site : Nat
  httpv : Nat
  infos : List (Nat × information)
  info_length : Int
deriving DecidableEq, Repr

/-! ## `analyze_request` -/

/-- The `for` loop of `analyze_request`.  `line` and `ptr` are the loop variables,
`count` the slot counter.  The result is the final buffer, the final `count` and the
stores performed; `none` only when `fuel` iterations were not enough. -/
def analyze_loop : Nat → Mem → Option Nat → Nat → Nat → List (Nat × information) →
    Option (Mem × Nat × List (Nat × information))
  | 0, _, _, _, _, _ => none
  | _ + 1, mem, none, _, count, infos => some (mem, count, infos)
  | fuel + 1, mem, some line, ptr, count, infos =>
    let k := strtok_r mem (some line) [':', ' '] 0
    let v := strtok_r k.mem none ['\r'] k.save
    let entry : information := ⟨k.tok.map (· + 1), v.tok.map (· + 1)⟩
    let next := strtok_r v.mem none ['\r'] ptr
    analyze_loop fuel next.mem next.tok next.save (count + 1) (infos ++ [(count, entry)])

/-- `analyze_request(buf)`.  `req_alloc` tells whether `malloc` returned a non-null
pointer.  The outer `Option` is `none` only if the loop ran out of fuel; the inner one
is the returned pointer (`none` is `NULL`), paired with the buffer after the call. -/
def analyze_request (req_alloc : Bool) (buf : Mem) : Option (Mem × Option http_request) :=
  if !req_alloc then some (buf, none)
  else
    let c := strtok_r buf (some 0) [' '] 0
    match c.tok with
    | none => some (c.mem, none)
    | some command =>
      let s := strtok_r c.mem none [' '] c.save
      match s.tok with
      | none => some (s.mem, none)
      | some site =>
        let h := strtok_r s.mem none ['\r'] s.save
        match h.tok with
        | none => some (h.mem, none)
        | some httpv =>
          let first := strtok_r h.mem none ['\r'] h.save
          match analyze_loop (first.mem.length + 2) first.mem first.tok first.save 0 [] with
          | none => none
          | some (mem, count, infos) =>
            some (mem, some ⟨command, site, httpv, infos, (count : Int) - 1⟩)

/-! ## `read_from` -/

/-- What one `recv` call returned: the bytes received (none at all when the peer has
closed), or a failure, which `recv` reports as the negative value `-(e + 1)`. -/
inductive Recv where
  | bytes (data : List Char)
  | fail (e : Nat)
deriving DecidableEq, Repr

/-- The `int` returned by `recv`. -/
def Recv.readlen : Recv → Int
  | .bytes data => data.length
  | .fail e => Int.negSucc e

/-- The buffer after `recv` stored its bytes at offset `ptr`, in place of the bytes that
were there. -/
def recv_store (buf : Mem) (ptr : Nat) : Recv → Mem
  | .bytes data => buf.take ptr ++ data ++ buf.drop (ptr + data.length)
  | .fail _ => buf

/-- One call `recv(socket, ptr, slen, 0)` that returned `readlen`. -/
structure RecvCall where
  ptr : Nat
  slen : Int
  readlen : Int
deriving DecidableEq, Repr

/-- Outcome of `read_from`: returned value, buffer, the `recv` calls made and the
offset at which the string terminator was stored (if any). -/
structure ReadResult where
  ret : Int
  buf : Mem
  calls : List RecvCall
  term : Option Nat
deriving DecidableEq, Repr

/-- The three statements after the loop of `read_from`. -/
def read_finish (len : Int) (buf : Mem) (ptr : Nat) (slen readlen : Int)
    (calls : List RecvCall) : ReadResult :=
  if readlen < 0 then ⟨readlen, buf, calls, none⟩
  else if readlen = 0 then ⟨len - slen, buf.set 0 NUL, calls, some 0⟩
  else ⟨len - slen, buf.set (ptr + readlen.toNat - 1) NUL, calls, some (ptr + readlen.toNat - 1)⟩

/-- The `while` loop of `read_from`.  `cur` is the latest `recv` result, already
stored at `ptr`; the list holds the results of the calls still to come, and a peer
that has nothing more to send has closed (`recv` returns 0). -/
def read_loop (len : Int) : List Recv → Mem → Nat → Int → Recv → List RecvCall → ReadResult
  | script, buf, ptr, slen, cur, calls =>
    if 0 < cur.readlen ∧ charAt buf (ptr + cur.readlen.toNat - 1) ≠ '\n' then
      let ptr1 := ptr + cur.readlen.toNat
      let slen1 := slen - cur.readlen
      match script with
      | [] =>
        read_finish len buf ptr1 slen1 0 (calls ++ [⟨ptr1, slen1, 0⟩])
      | r :: rest =>
        read_loop len rest (recv_store buf ptr1 r) ptr1 slen1 r
          (calls ++ [⟨ptr1, slen1, r.readlen⟩])
    else read_finish len buf ptr slen cur.readlen calls

/-- `read_from(socket, buf, len)` against the given `recv` results. -/
def read_from (script : List Recv) (buf : Mem) (len : Int) : ReadResult :=
  match script with
  | [] => read_finish len buf 0 len 0 [⟨0, len, 0⟩]
  | r :: rest => read_loop len rest (recv_store buf 0 r) 0 len r [⟨0, len, r.readlen⟩]

/-! ## `say_to`, `send_reply`, `process_connection` -/

/-- What the connection handler does to the outside world, in program order. -/
inductive Action where
  | error (what : String)
  | info_request (command site : List Char)
  | info_closed
  | send (msg : List Char) (result : Int)
  | close
  | free_req
deriving DecidableEq, Repr

/-- The first message of the reply. -/
def status_line : List Char := "HTTP/1.1 200 OK\r\n\r\n".toList

/-- The second message of the reply. -/
def reply_body : List Char := "Hello!\r\n".toList

/-- `say_to(socket, msg)` when `send` returns `result`: the returned value and the
actions performed. -/
def say_to (result : Int) (msg : List Char) : Int × List Action :=
  (result,
    if result = -1 then [.send msg result, .error "Failed to send message"]
    else [.send msg result])

/-- `send_reply(socket, req)`; `sendres i` is what the `i`-th call of `send` returns. -/
def send_reply (sendres : Nat → Int) : List Action :=
  let first := say_to (sendres 0) status_line
  if first.1 = -1 then first.2
  else
    let second := say_to (sendres 1) reply_body
    first.2 ++ second.2

/-- `process_connection`.  `buf` is the result of `malloc(10240)` (`none` is `NULL`,
otherwise the initial contents of the block), `script` the `recv` results, `req_alloc`
the outcome of the `malloc` in `analyze_request`.  The result is the sequence of
actions; `none` only if the tokenizer loop ran out of fuel. -/
def process_connection (buf : Option Mem) (script : List Recv) (req_alloc : Bool)
    (sendres : Nat → Int) : Option (List Action) :=
  match buf with
  | none => some [.error "Unable to read the request", .close]
  | some b =>
    let r := read_from script b 10239
    if r.ret < 0 then some [.error "Unable to read the request", .close]
    else
      match analyze_request req_alloc r.buf with
      | none => none
      | some (_, none) => some [.error "Unable to analyze the request", .close]
      | some (mem, some req) =>
        some ([.info_request (cstr mem req.command) (cstr mem req.site)]
          ++ send_reply sendres
          ++ [.close, .info_closed, .free_req]
          ++ [.close])

/-- The bytes one action puts on the connection: a `send` that returned `result ≥ 0`
transmitted the first `result` bytes of its message. -/
def Action.wire : Action → List Char
  | .send msg result => msg.take result.toNat
  | _ => []

/-- The byte sequence a run puts on the connection. -/
def wire : List Action → List Char
  | [] => []
  | a :: rest => a.wire ++ wire rest

/-- The messages handed to `send`, in order. -/
def sent_messages : List Action → List (List Char)
  | [] => []
  | .send msg _ :: rest => msg :: sent_messages rest
  | _ :: rest => sent_messages rest

/-- Number of `close(connect_d)` calls in a run. -/
def closes (t : List Action) : Nat := t.count Action.close


/-! ## Requests as the specification describes them -/

/-- The request line `COMMAND SP TARGET SP VERSION CR LF`. -/
def request_line (command target version : List Char) : List Char :=
  command ++ ' ' :: (target ++ ' ' :: (version ++ ['\r', '\n']))

/-- One header line `Key: Value CR LF`. -/
def header_line (h : List Char × List Char) : List Char :=
  h.1 ++ ':' :: ' ' :: (h.2 ++ ['\r', '\n'])

/-- What follows the request line: the header lines, then the blank line if `blank`. -/
def tail_text : List (List Char × List Char) → Bool → List Char
  | [], blank => if blank then ['\r', '\n'] else []
  | h :: hs, blank => header_line h ++ tail_text hs blank

/-- The bytes of a request: request line, header lines, blank line if `blank`. -/
def http_text (command target version : List Char) (hs : List (List Char × List Char))
    (blank : Bool) : List Char :=
  request_line command target version ++ tail_text hs blank

/-- A token of the request line: non-empty and free of space, CR, LF and NUL. -/
def Token (t : List Char) : Prop :=
  t ≠ [] ∧ ∀ c ∈ t, c ≠ ' ' ∧ c ≠ '\r' ∧ c ≠ '\n' ∧ c ≠ NUL

/-- A well-formed header: the key is non-empty and free of colon, space, CR, LF and
NUL; the value is free of CR, LF and NUL. -/
def Header (h : List Char × List Char) : Prop :=
  (h.1 ≠ [] ∧ ∀ c ∈ h.1, c ≠ ':' ∧ c ≠ ' ' ∧ c ≠ '\r' ∧ c ≠ '\n' ∧ c ≠ NUL)
    ∧ ∀ c ∈ h.2, c ≠ '\r' ∧ c ≠ '\n' ∧ c ≠ NUL

/-- A token with the three exclusions only: non-empty and free of space, CR and LF
(NUL is not excluded). -/
def ClaimedToken (t : List Char) : Prop :=
  t ≠ [] ∧ ∀ c ∈ t, c ≠ ' ' ∧ c ≠ '\r' ∧ c ≠ '\n'

/-- A header with the same exclusions only: key non-empty and free of colon, space, CR
and LF; value free of CR and LF (NUL is not excluded). -/
def ClaimedHeader (h : List Char × List Char) : Prop :=
  (h.1 ≠ [] ∧ ∀ c ∈ h.1, c ≠ ':' ∧ c ≠ ' ' ∧ c ≠ '\r' ∧ c ≠ '\n')
    ∧ ∀ c ∈ h.2, c ≠ '\r' ∧ c ≠ '\n'

/-- The pieces `chunks` are a way for `recv` to hand over `request` to `read_from`:
no piece is empty and no piece but the last ends with a line feed. -/
def Delivers (chunks : List (List Char)) (request : List Char) : Prop :=
  chunks.flatten = request ∧ (∀ c ∈ chunks, c ≠ [])
    ∧ ∀ c ∈ chunks.dropLast, c.getLast? ≠ some '\n'

instance (t : List Char) : Decidable (Token t) := by
  unfold Token; infer_instance

instance (h : List Char × List Char) : Decidable (Header h) := by
  unfold Header; infer_instance

instance (t : List Char) : Decidable (ClaimedToken t) := by
  unfold ClaimedToken; infer_instance

instance (h : List Char × List Char) : Decidable (ClaimedHeader h) := by
  unfold ClaimedHeader; infer_instance

instance (chunks : List (List Char)) (request : List Char) :
    Decidable (Delivers chunks request) := by
  unfold Delivers; infer_instance

/-! ## The tokenizer as the specification words it -/

/-- The non-empty pieces of `s` between chars of `delim`; `cur` is the piece being
read. -/
def pieces_from (delim : List Char) : List Char → List Char → List (List Char)
  | [], cur => if cur = [] then [] else [cur]
  | c :: cs, cur =>
    if c ∈ delim then
      if cur = [] then pieces_from delim cs [] else cur :: pieces_from delim cs []
    else pieces_from delim cs (cur ++ [c])

/-- The string `s` split on the chars of `delim`, empty pieces dropped. -/
def pieces (delim : List Char) (s : List Char) : List (List Char) := pieces_from delim s []

/-- One tokenizing step: skip the delimiters in front, the token is the text up to the
next delimiter, and the rest starts after that delimiter.  `none` when only delimiters
are left. -/
def next_token (delim : List Char) (s : List Char) : Option (List Char × List Char) :=
  match s.dropWhile (fun c => decide (c ∈ delim)) with
  | [] => none
  | c :: cs =>
    some ((c :: cs).takeWhile (fun x => decide (x ∉ delim)),
      ((c :: cs).dropWhile (fun x => decide (x ∉ delim))).drop 1)

/-- The command, target and version of a request text: the first two tokens are
delimited by spaces, the third by CR.  `none` when one of the three is missing. -/
def request_tokens (s : List Char) : Option (List Char × List Char × List Char) :=
  match next_token [' '] s with
  | none => none
  | some (c, r1) =>
    match next_token [' '] r1 with
    | none => none
    | some (t, r2) =>
      match next_token ['\r'] r2 with
      | none => none
      | some (v, _) => some (c, t, v)

/-! ## Reading results back -/

/-- The pointer a call returned, without the buffer: `some none` is `NULL`. -/
def returned (r : Option (Mem × Option http_request)) : Option (Option http_request) :=
  r.map Prod.snd

/-- The strings a stored header entry points to in buffer `mem`, with its slot. -/
def header_strings (mem : Mem) (e : Nat × information) :
    Nat × Option (List Char) × Option (List Char) :=
  (e.1, e.2.key.map (cstr mem), e.2.value.map (cstr mem))

/-- The header list of the returned request, read back as strings. -/
def returned_headers (r : Option (Mem × Option http_request)) :
    Option (Option (List (Nat × Option (List Char) × Option (List Char)))) :=
  r.map fun p => p.2.map fun req => req.infos.map (header_strings p.1)

/-- The entry that slot `i` of the array `infos` holds after the stores of `log`, made
in order: the last entry stored there, `none` if the slot was never written. -/
def infos_at (log : List (Nat × information)) (i : Nat) : Option information :=
  log.foldl (fun cur e => if e.1 = i then some e.2 else cur) none

/-- The key and the value that `infos[i]` of the request holds after the call, read back
as strings from the buffer `mem`; `none` if slot `i` was never written. -/
def header_at (mem : Mem) (req : http_request) (i : Nat) :
    Option (Option (List Char) × Option (List Char)) :=
  (infos_at req.infos i).map fun e => (e.key.map (cstr mem), e.value.map (cstr mem))

/-- What the header list holds after parsing a request with headers `hs`, as
(slot, key, value) from slot `count` on: the headers in order and, if the request
has its blank line, one more slot with an empty key and a null value. -/
def stored_headers : List (List Char × List Char) → Nat → Bool →
    List (Nat × Option (List Char) × Option (List Char))
  | [], count, blank => if blank then [(count, some [], none)] else []
  | h :: hs, count, blank => (count, some h.1, some h.2) :: stored_headers hs (count + 1) blank

/-- What `read_from` reports, in terms of the `recv` call that ended its loop (the last
one made): an error exactly when that call returned a negative value, and then that
value; when that call returned 0, a non-negative value and an empty string. -/
def Reports (r : ReadResult) : Prop :=
  ∃ last, r.calls.getLast? = some last
    ∧ (r.ret < 0 ↔ last.readlen < 0)
    ∧ (last.readlen < 0 → r.ret = last.readlen)
    ∧ (last.readlen = 0 → 0 ≤ r.ret ∧ cstr r.buf 0 = [])

/-- One `recv` call stays within the first `len` bytes of the buffer: the length asked
for is not negative, and the bytes accumulated before and after the call are at most
`len`. -/
def InBounds (len : Int) (c : RecvCall) : Prop :=
  0 ≤ c.slen ∧ (c.ptr : Int) ≤ len ∧ (c.ptr : Int) + c.readlen ≤ len

/-! ## Auxiliary definitions for the proofs about the loop of `analyze_request` -/

/-- Reading the next line and running the loop from there: the `for` loop of
`analyze_request` seen from its initialisation or from its increment step. -/
def analyze_lines (fuel : Nat) (mem : Mem) (ptr count : Nat)
    (infos : List (Nat × information)) : Option (Mem × Nat × List (Nat × information)) :=
  let next := strtok_r mem none ['\r'] ptr
  analyze_loop fuel next.mem next.tok next.save count infos

/-- The buffer contents after the CR of a line, once `read_from` has stored the
terminator: the remaining header lines, the blank line if any, the terminator. -/
def rest_text : List (List Char × List Char) → Bool → Mem → Mem
  | [], blank, post => if blank then '\n' :: '\r' :: NUL :: post else NUL :: post
  | h :: hs, blank, post =>
    '\n' :: (h.1 ++ ':' :: ' ' :: (h.2 ++ '\r' :: rest_text hs blank post))

/-! ## Basic facts about buffers -/

theorem charAt_append_cons (pre : Mem) (c : Char) (post : Mem) :
    charAt (pre ++ c :: post) pre.length = c := by
  unfold charAt
  rw [List.getD_eq_getElem?_getD, List.getElem?_append_right (Nat.le_refl _)]
  simp

theorem set_append_cons (pre : Mem) (c d : Char) (post : Mem) :
    (pre ++ c :: post).set pre.length d = pre ++ d :: post := by
  simp

theorem cstr_append_cons (pre t post : Mem) (ht : ∀ c ∈ t, c ≠ NUL) :
    cstr (pre ++ t ++ NUL :: post) pre.length = t := by
  unfold cstr
  rw [List.append_assoc, List.drop_left]
  induction t with
  | nil => simp
  | cons c t ih =>
    have hc : c ≠ NUL := ht c (List.mem_cons_self _ _)
    simp [hc]
    exact ih (fun x hx => ht x (List.mem_cons_of_mem _ hx))

theorem strspn_append (a b D : List Char) (ha : ∀ c ∈ a, c ≠ NUL ∧ c ∈ D) :
    strspn (a ++ b) D = a.length + strspn b D := by
  induction a with
  | nil => simp
  | cons c a ih =>
    have hc := ha c (List.mem_cons_self _ _)
    simp [strspn, hc, ih (fun x hx => ha x (List.mem_cons_of_mem _ hx))]
    omega

theorem strcspn_append (t b D : List Char) (ht : ∀ c ∈ t, c ≠ NUL ∧ c ∉ D) :
    strcspn (t ++ b) D = t.length + strcspn b D := by
  induction t with
  | nil => simp
  | cons c t ih =>
    have hc := ht c (List.mem_cons_self _ _)
    simp [strcspn, hc, ih (fun x hx => ht x (List.mem_cons_of_mem _ hx))]
    omega

theorem strspn_stop (c : Char) (b D : List Char) (h : c = NUL ∨ c ∉ D) :
    strspn (c :: b) D = 0 := by
  rcases h with h | h <;> simp [strspn, h]

theorem strcspn_stop (c : Char) (b D : List Char) (h : c = NUL ∨ c ∈ D) :
    strcspn (c :: b) D = 0 := by
  rcases h with h | h <;> simp [strcspn, h]

/-- `strtok_r` when only delimiters are left before the terminator: `NULL`. -/
theorem strtok_r_none (pre a post D : List Char) (s : Option Nat) (save : Nat)
    (hs : s.getD save = pre.length) (ha : ∀ c ∈ a, c ≠ NUL ∧ c ∈ D) :
    strtok_r (pre ++ a ++ NUL :: post) s D save
      = ⟨pre ++ a ++ NUL :: post, none, pre.length + a.length⟩ := by
  have h1 : strspn ((pre ++ a ++ NUL :: post).drop pre.length) D = a.length := by
    rw [List.append_assoc, List.drop_left, strspn_append a _ D ha, strspn_stop _ _ _ (Or.inl rfl)]
    rfl
  have h2 : charAt (pre ++ a ++ NUL :: post) (pre.length + a.length) = NUL := by
    rw [← List.length_append]; exact charAt_append_cons _ _ _
  simp only [strtok_r, hs, h1, h2, if_true]

/-- `strtok_r` when the token runs up to the terminator: nothing is written. -/
theorem strtok_r_last (pre a t post D : List Char) (s : Option Nat) (save : Nat)
    (hs : s.getD save = pre.length) (ha : ∀ c ∈ a, c ≠ NUL ∧ c ∈ D)
    (ht : ∀ c ∈ t, c ≠ NUL ∧ c ∉ D) (hne : t ≠ []) :
    strtok_r (pre ++ a ++ t ++ NUL :: post) s D save
      = ⟨pre ++ a ++ t ++ NUL :: post, some (pre.length + a.length),
          pre.length + a.length + t.length⟩ := by
  obtain ⟨c, t1, rfl⟩ := List.exists_cons_of_ne_nil hne
  have hc := ht c (List.mem_cons_self _ _)
  have h1 : strspn ((pre ++ a ++ c :: t1 ++ NUL :: post).drop pre.length) D = a.length := by
    rw [List.append_assoc, List.append_assoc, List.drop_left, strspn_append a _ D ha]
    simp [strspn, hc]
  have h2 : charAt (pre ++ a ++ c :: t1 ++ NUL :: post) (pre.length + a.length) = c := by
    rw [← List.length_append, List.append_assoc (pre ++ a)]; exact charAt_append_cons _ _ _
  have h3 : strcspn ((pre ++ a ++ c :: t1 ++ NUL :: post).drop (pre.length + a.length)) D
      = (c :: t1).length := by
    rw [← List.length_append, List.append_assoc (pre ++ a), List.drop_left,
      strcspn_append (c :: t1) _ D ht, strcspn_stop _ _ _ (Or.inl rfl)]
    rfl
  have h4 : charAt (pre ++ a ++ c :: t1 ++ NUL :: post)
      (pre.length + a.length + (c :: t1).length) = NUL := by
    rw [← List.length_append, ← List.length_append]; exact charAt_append_cons _ _ _
  simp only [strtok_r, hs, h1, h2, h3, h4, hc.1, if_true, if_false]

/-- `strtok_r` when the token is followed by a delimiter: the delimiter is overwritten
with the terminator and scanning will resume right after it. -/
theorem strtok_r_cut (pre a t post D : List Char) (d : Char) (s : Option Nat) (save : Nat)
    (hs : s.getD save = pre.length) (ha : ∀ c ∈ a, c ≠ NUL ∧ c ∈ D)
    (ht : ∀ c ∈ t, c ≠ NUL ∧ c ∉ D) (hne : t ≠ []) (hd : d ≠ NUL ∧ d ∈ D) :
    strtok_r (pre ++ a ++ t ++ d :: post) s D save
      = ⟨pre ++ a ++ t ++ NUL :: post, some (pre.length + a.length),
          pre.length + a.length + t.length + 1⟩ := by
  obtain ⟨c, t1, rfl⟩ := List.exists_cons_of_ne_nil hne
  have hc := ht c (List.mem_cons_self _ _)
  have h1 : strspn ((pre ++ a ++ c :: t1 ++ d :: post).drop pre.length) D = a.length := by
    rw [List.append_assoc, List.append_assoc, List.drop_left, strspn_append a _ D ha]
    simp [strspn, hc]
  have h2 : charAt (pre ++ a ++ c :: t1 ++ d :: post) (pre.length + a.length) = c := by
    rw [← List.length_append, List.append_assoc (pre ++ a)]; exact charAt_append_cons _ _ _
  have h3 : strcspn ((pre ++ a ++ c :: t1 ++ d :: post).drop (pre.length + a.length)) D
      = (c :: t1).length := by
    rw [← List.length_append, List.append_assoc (pre ++ a), List.drop_left,
      strcspn_append (c :: t1) _ D ht, strcspn_stop _ _ _ (Or.inr hd.2)]
    rfl
  have h4 : charAt (pre ++ a ++ c :: t1 ++ d :: post)
      (pre.length + a.length + (c :: t1).length) = d := by
    rw [← List.length_append, ← List.length_append]; exact charAt_append_cons _ _ _
  have h5 : (pre ++ a ++ c :: t1 ++ d :: post).set (pre.length + a.length + (c :: t1).length) NUL
      = pre ++ a ++ c :: t1 ++ NUL :: post := by
    rw [← List.length_append, ← List.length_append]; exact set_append_cons _ _ _ _
  simp only [strtok_r, hs, h1, h2, h3, h4, h5, hc.1, hd.1, if_false]

/-- The three cases of `strtok_r`, with the buffers and offsets given up to equality. -/
theorem strtok_r_none_eq (mem pre a post D : List Char) (s : Option Nat) (save p : Nat)
    (hmem : mem = pre ++ a ++ NUL :: post) (hs : s.getD save = pre.length)
    (hp : p = pre.length + a.length) (ha : ∀ c ∈ a, c ≠ NUL ∧ c ∈ D) :
    strtok_r mem s D save = ⟨mem, none, p⟩ := by
  subst hmem; subst hp; exact strtok_r_none pre a post D s save hs ha

theorem strtok_r_last_eq (mem pre a t post D : List Char) (s : Option Nat) (save q p : Nat)
    (hmem : mem = pre ++ a ++ t ++ NUL :: post) (hs : s.getD save = pre.length)
    (hq : q = pre.length + a.length) (hp : p = pre.length + a.length + t.length)
    (ha : ∀ c ∈ a, c ≠ NUL ∧ c ∈ D) (ht : ∀ c ∈ t, c ≠ NUL ∧ c ∉ D) (hne : t ≠ []) :
    strtok_r mem s D save = ⟨mem, some q, p⟩ := by
  subst hmem; subst hp; subst hq; exact strtok_r_last pre a t post D s save hs ha ht hne

theorem strtok_r_cut_eq (mem mem1 pre a t post D : List Char) (d : Char) (s : Option Nat)
    (save q p : Nat)
    (hmem : mem = pre ++ a ++ t ++ d :: post) (hmem1 : mem1 = pre ++ a ++ t ++ NUL :: post)
    (hs : s.getD save = pre.length)
    (hq : q = pre.length + a.length) (hp : p = pre.length + a.length + t.length + 1)
    (ha : ∀ c ∈ a, c ≠ NUL ∧ c ∈ D) (ht : ∀ c ∈ t, c ≠ NUL ∧ c ∉ D) (hne : t ≠ [])
    (hd : d ≠ NUL ∧ d ∈ D) :
    strtok_r mem s D save = ⟨mem1, some q, p⟩ := by
  subst hmem; subst hmem1; subst hp; subst hq
  exact strtok_r_cut pre a t post D d s save hs ha ht hne hd

theorem space_ne_NUL : (' ' : Char) ≠ NUL := by decide

theorem cr_ne_NUL : ('\r' : Char) ≠ NUL := by decide

/-! ## Facts about `strtok_r` on an arbitrary buffer -/

theorem take_set_of_le (l : Mem) (a : Char) (n m : Nat) (h : m ≤ n) :
    (l.set n a).take m = l.take m :=
  List.ext_getElem? fun i => by
    rw [List.getElem?_take, List.getElem?_take]
    split
    · rw [List.getElem?_set_ne (by omega)]
    · rfl

theorem strspn_le (l D : List Char) : strspn l D ≤ l.length := by
  induction l with
  | nil => simp [strspn]
  | cons c l ih => simp only [strspn]; split <;> simp; omega

theorem strcspn_le (l D : List Char) : strcspn l D ≤ l.length := by
  induction l with
  | nil => simp [strcspn]
  | cons c l ih => simp only [strcspn]; split <;> simp; omega

theorem charAt_ne_NUL_lt (mem : Mem) (p : Nat) (h : charAt mem p ≠ NUL) : p < mem.length := by
  by_contra hp
  apply h
  unfold charAt
  rw [List.getD_eq_getElem?_getD, List.getElem?_eq_none (by omega)]
  rfl

theorem strtok_r_length (mem : Mem) (s : Option Nat) (D : List Char) (save : Nat) :
    (strtok_r mem s D save).mem.length = mem.length := by
  unfold strtok_r
  simp only
  split
  · rfl
  · split
    · rfl
    · simp

theorem strtok_r_take (mem : Mem) (s : Option Nat) (D : List Char) (save b : Nat)
    (hb : b ≤ s.getD save) : (strtok_r mem s D save).mem.take b = mem.take b := by
  unfold strtok_r
  simp only
  split
  · rfl
  · split
    · rfl
    · exact take_set_of_le _ _ _ _ (by omega)

theorem strtok_r_save_ge (mem : Mem) (s : Option Nat) (D : List Char) (save : Nat) :
    s.getD save ≤ (strtok_r mem s D save).save := by
  unfold strtok_r
  simp only
  split
  · simp
  · split
    · simp; omega
    · simp; omega

theorem strtok_r_save_le (mem : Mem) (s : Option Nat) (D : List Char) (save : Nat)
    (h : s.getD save ≤ mem.length) : (strtok_r mem s D save).save ≤ mem.length := by
  have h1 := strspn_le (mem.drop (s.getD save)) D
  have h2 := strcspn_le (mem.drop (s.getD save + strspn (mem.drop (s.getD save)) D)) D
  simp only [List.length_drop] at h1 h2
  unfold strtok_r
  simp only
  split
  · simp; omega
  · split
    · simp; omega
    · rename_i h3 h4
      have := charAt_ne_NUL_lt _ _ h4
      simp; omega

theorem strtok_r_tok (mem : Mem) (s : Option Nat) (D : List Char) (save q : Nat)
    (h : (strtok_r mem s D save).tok = some q) :
    s.getD save ≤ q ∧ q < (strtok_r mem s D save).save := by
  unfold strtok_r at h ⊢
  simp only at h ⊢
  split at h
  · simp at h
  · rename_i h3
    split at h
    · rename_i h4
      simp at h
      rw [if_neg h3, if_pos h4]
      subst h
      refine ⟨by omega, ?_⟩
      simp only
      by_contra hlt
      have : strcspn (List.drop (Option.getD s save + strspn (List.drop (Option.getD s save) mem) D) mem) D = 0 := by omega
      rw [this] at h4
      exact h3 h4
    · rename_i h4
      simp at h
      rw [if_neg h3, if_neg h4]
      subst h
      simp only
      omega

/-! ## Termination and frame of the tokenizer loop -/

/-- With `mem.length + 2 - ptr` units of fuel the loop of `analyze_request` returns. -/
theorem analyze_loop_returns : ∀ (fuel : Nat) (mem : Mem) (line : Option Nat) (ptr count : Nat)
    (infos : List (Nat × information)),
    1 ≤ fuel → (line.isSome → ptr ≤ mem.length ∧ mem.length + 2 ≤ fuel + ptr) →
    ∃ r, analyze_loop fuel mem line ptr count infos = some r := by
  intro fuel
  induction fuel with
  | zero => intro _ _ _ _ _ h; omega
  | succ fuel ih =>
    intro mem line ptr count infos _ h
    cases line with
    | none => exact ⟨_, rfl⟩
    | some l =>
      obtain ⟨h1, h2⟩ := h rfl
      simp only [analyze_loop]
      have hk := strtok_r_length mem (some l) [':', ' '] 0
      have hv := strtok_r_length (strtok_r mem (some l) [':', ' '] 0).mem none ['\r']
        (strtok_r mem (some l) [':', ' '] 0).save
      generalize (strtok_r (strtok_r mem (some l) [':', ' '] 0).mem none ['\r']
        (strtok_r mem (some l) [':', ' '] 0).save).mem = m2 at hv ⊢
      have hm2 : m2.length = mem.length := by omega
      have hn := strtok_r_length m2 none ['\r'] ptr
      have hle := strtok_r_save_le m2 none ['\r'] ptr (by simpa [hm2] using h1)
      apply ih
      · omega
      · intro hsome
        obtain ⟨q, hq⟩ := Option.isSome_iff_exists.mp hsome
        have := (strtok_r_tok m2 none ['\r'] ptr q hq).2
        have hge := (strtok_r_tok m2 none ['\r'] ptr q hq).1
        simp at hge
        omega

/-- The loop of `analyze_request` never writes below the start of the current line. -/
theorem analyze_loop_take : ∀ (fuel : Nat) (mem : Mem) (line : Option Nat) (ptr count : Nat)
    (infos : List (Nat × information)) (b : Nat) (r : Mem × Nat × List (Nat × information)),
    (∀ l, line = some l → b ≤ l) → b ≤ ptr →
    analyze_loop fuel mem line ptr count infos = some r → r.1.take b = mem.take b := by
  intro fuel
  induction fuel with
  | zero => intro _ _ _ _ _ _ _ _ _ h; simp [analyze_loop] at h
  | succ fuel ih =>
    intro mem line ptr count infos b r hl hp h
    cases line with
    | none => simp [analyze_loop] at h; subst h; rfl
    | some l =>
      simp only [analyze_loop] at h
      have hbl := hl l rfl
      have h1 := strtok_r_take mem (some l) [':', ' '] 0 b (by simpa using hbl)
      have h1s := strtok_r_save_ge mem (some l) [':', ' '] 0
      simp only [Option.getD_some] at h1s
      generalize strtok_r mem (some l) [':', ' '] 0 = k at h h1 h1s
      have h2 := strtok_r_take k.mem none ['\r'] k.save b (by simp; omega)
      generalize strtok_r k.mem none ['\r'] k.save = v at h h2
      have h3 := strtok_r_take v.mem none ['\r'] ptr b (by simpa using hp)
      have h3s := strtok_r_save_ge v.mem none ['\r'] ptr
      have h3t := strtok_r_tok v.mem none ['\r'] ptr
      simp only [Option.getD_none] at h3s h3t
      generalize strtok_r v.mem none ['\r'] ptr = n at h h3 h3s h3t
      have := ih n.mem n.tok n.save (count + 1) _ b r
        (fun q hq => by have := (h3t q hq).1; omega) (by omega) h
      rw [this, h3, h2, h1]

theorem cstr_of_take (m pre t x : Mem) (n : Nat) (h : m.take n = pre ++ t ++ NUL :: x)
    (ht : ∀ c ∈ t, c ≠ NUL) : cstr m pre.length = t := by
  have hm : m = pre ++ t ++ NUL :: (x ++ m.drop n) := by
    conv_lhs => rw [← List.take_append_drop n m, h]
    simp
  rw [hm]
  exact cstr_append_cons _ _ _ ht


/-! ## `read_from` on a request that arrives in pieces -/

theorem readlen_bytes (c : List Char) : (Recv.bytes c).readlen = (c.length : Int) := rfl

theorem read_loop_stop (len : Int) (script : List Recv) (buf : Mem) (ptr : Nat) (slen : Int)
    (cur : Recv) (calls : List RecvCall)
    (h : ¬ (0 < cur.readlen ∧ charAt buf (ptr + cur.readlen.toNat - 1) ≠ '\n')) :
    read_loop len script buf ptr slen cur calls = read_finish len buf ptr slen cur.readlen calls := by
  unfold read_loop
  rw [if_neg h]

theorem read_loop_eof (len : Int) (buf : Mem) (ptr : Nat) (slen : Int)
    (cur : Recv) (calls : List RecvCall)
    (h : 0 < cur.readlen ∧ charAt buf (ptr + cur.readlen.toNat - 1) ≠ '\n') :
    read_loop len [] buf ptr slen cur calls
      = read_finish len buf (ptr + cur.readlen.toNat) (slen - cur.readlen) 0
          (calls ++ [⟨ptr + cur.readlen.toNat, slen - cur.readlen, 0⟩]) := by
  unfold read_loop
  rw [if_pos h]

theorem read_loop_step (len : Int) (r : Recv) (rest : List Recv) (buf : Mem) (ptr : Nat)
    (slen : Int) (cur : Recv) (calls : List RecvCall)
    (h : 0 < cur.readlen ∧ charAt buf (ptr + cur.readlen.toNat - 1) ≠ '\n') :
    read_loop len (r :: rest) buf ptr slen cur calls
      = read_loop len rest (recv_store buf (ptr + cur.readlen.toNat) r) (ptr + cur.readlen.toNat)
          (slen - cur.readlen) r
          (calls ++ [⟨ptr + cur.readlen.toNat, slen - cur.readlen, r.readlen⟩]) := by
  rw [read_loop, if_pos h]

theorem recv_store_bytes (pre : Mem) (buf0 : Mem) (r : List Char) (n : Nat)
    (hn : n = pre.length) :
    recv_store (pre ++ buf0.drop n) n (Recv.bytes r) = pre ++ r ++ buf0.drop (n + r.length) := by
  subst hn
  simp only [recv_store]
  rw [List.take_left, List.drop_append, List.drop_drop]

theorem read_loop_deliver (len : Int) : ∀ (rest : List (List Char)) (acc c : List Char)
    (buf0 buf : Mem) (ptr : Nat) (slen : Int) (calls : List RecvCall),
    c ≠ [] → (∀ x ∈ rest, x ≠ []) → (∀ x ∈ (c :: rest).dropLast, x.getLast? ≠ some '\n') →
    (acc ++ c ++ rest.flatten).getLast? = some '\n' →
    buf = acc ++ c ++ buf0.drop (acc.length + c.length) → ptr = acc.length →
    (read_loop len (rest.map Recv.bytes) buf ptr slen (Recv.bytes c) calls).buf
      = (acc ++ c ++ rest.flatten).dropLast ++ NUL :: buf0.drop (acc ++ c ++ rest.flatten).length
    ∧ (read_loop len (rest.map Recv.bytes) buf ptr slen (Recv.bytes c) calls).ret
      = len - slen + ((c :: rest).dropLast.flatten.length : Int) := by
  intro rest
  induction rest with
  | nil =>
    intro acc c buf0 buf ptr slen calls hc _ _ hlast hbuf hptr
    obtain ⟨c1, x, rfl⟩ : ∃ c1 x, c = c1 ++ [x] := by
      rcases List.eq_nil_or_concat' c with h | ⟨c1, x, h⟩
      · exact absurd h hc
      · exact ⟨c1, x, h⟩
    have hx : x = '\n' := by
      simp only [List.flatten_nil, List.append_nil, ← List.append_assoc,
        List.getLast?_concat] at hlast
      exact Option.some.inj hlast
    subst hx
    have hidx : ptr + ((Recv.bytes (c1 ++ ['\n'])).readlen).toNat - 1 = (acc ++ c1).length := by
      simp [readlen_bytes, hptr]
    have hbuf2 : buf = (acc ++ c1) ++ '\n' :: buf0.drop (acc.length + (c1 ++ ['\n']).length) := by
      rw [hbuf]; simp
    have hch : charAt buf (ptr + ((Recv.bytes (c1 ++ ['\n'])).readlen).toNat - 1) = '\n' := by
      rw [hidx, hbuf2]; exact charAt_append_cons _ _ _
    rw [List.map_nil, read_loop_stop _ _ _ _ _ _ _ (by simp [hch])]
    have hpos : ¬ (Recv.bytes (c1 ++ ['\n'])).readlen < 0 := by simp [readlen_bytes]; omega
    have hne : ¬ (Recv.bytes (c1 ++ ['\n'])).readlen = 0 := by simp [readlen_bytes]; omega
    simp only [read_finish, hpos, hne, if_false, hidx]
    constructor
    · rw [hbuf2, set_append_cons]
      simp [← List.append_assoc, Nat.add_assoc]
    · simp
  | cons r rest ih =>
    intro acc c buf0 buf ptr slen calls hc hrest hnl hlast hbuf hptr
    obtain ⟨c1, x, rfl⟩ : ∃ c1 x, c = c1 ++ [x] := by
      rcases List.eq_nil_or_concat' c with h | ⟨c1, x, h⟩
      · exact absurd h hc
      · exact ⟨c1, x, h⟩
    have hx : x ≠ '\n' := by
      have := hnl (c1 ++ [x]) (by simp [List.dropLast])
      simpa using this
    have hidx : ptr + ((Recv.bytes (c1 ++ [x])).readlen).toNat - 1 = (acc ++ c1).length := by
      simp [readlen_bytes, hptr]
    have hbuf2 : buf = (acc ++ c1) ++ x :: buf0.drop (acc.length + (c1 ++ [x]).length) := by
      rw [hbuf]; simp
    have hch : charAt buf (ptr + ((Recv.bytes (c1 ++ [x])).readlen).toNat - 1) = x := by
      rw [hidx, hbuf2]; exact charAt_append_cons _ _ _
    have hpos : 0 < (Recv.bytes (c1 ++ [x])).readlen := by simp [readlen_bytes]
    rw [List.map_cons, read_loop_step _ _ _ _ _ _ _ _ ⟨hpos, by rw [hch]; exact hx⟩]
    have hr : r ≠ [] := hrest r (List.mem_cons_self _ _)
    have hp2 : ptr + ((Recv.bytes (c1 ++ [x])).readlen).toNat = (acc ++ (c1 ++ [x])).length := by
      simp [readlen_bytes, hptr]
    have hstore : recv_store buf (ptr + ((Recv.bytes (c1 ++ [x])).readlen).toNat) (Recv.bytes r)
        = (acc ++ (c1 ++ [x])) ++ r
          ++ buf0.drop ((acc ++ (c1 ++ [x])).length + r.length) := by
      rw [hp2, hbuf, ← List.length_append]
      exact recv_store_bytes _ _ _ _ rfl
    have := ih (acc ++ (c1 ++ [x])) r buf0 _ _ (slen - (Recv.bytes (c1 ++ [x])).readlen)
      (calls ++ [⟨ptr + ((Recv.bytes (c1 ++ [x])).readlen).toNat,
        slen - (Recv.bytes (c1 ++ [x])).readlen, (Recv.bytes r).readlen⟩]) hr
      (fun y hy => hrest y (List.mem_cons_of_mem _ hy))
      (fun y hy => hnl y (by
        cases rest with
        | nil => simp at hy
        | cons r2 rest2 => simp [List.dropLast] at hy ⊢; exact Or.inr hy))
      (by simpa [List.append_assoc] using hlast) hstore hp2
    constructor
    · rw [this.1]; simp [List.append_assoc]
    · rw [this.2, readlen_bytes]
      cases rest with
      | nil => simp [List.dropLast]; omega
      | cons r2 rest2 => simp [List.dropLast]; omega


/-! ## The header lines -/

theorem analyze_loop_succ (fuel : Nat) (mem : Mem) (line ptr count : Nat)
    (infos : List (Nat × information)) :
    analyze_loop (fuel + 1) mem (some line) ptr count infos
      = analyze_lines fuel
          (strtok_r (strtok_r mem (some line) [':', ' '] 0).mem none ['\r']
            (strtok_r mem (some line) [':', ' '] 0).save).mem
          ptr (count + 1)
          (infos ++ [(count,
            ⟨(strtok_r mem (some line) [':', ' '] 0).tok.map (· + 1),
             (strtok_r (strtok_r mem (some line) [':', ' '] 0).mem none ['\r']
              (strtok_r mem (some line) [':', ' '] 0).save).tok.map (· + 1)⟩)]) := rfl

theorem analyze_loop_none (fuel : Nat) (mem : Mem) (ptr count : Nat)
    (infos : List (Nat × information)) :
    analyze_loop (fuel + 1) mem none ptr count infos = some (mem, count, infos) := rfl

/-- No line is left: the loop ends at once. -/
theorem analyze_lines_end (fuel : Nat) (pre post : Mem) (count : Nat)
    (infos : List (Nat × information)) :
    analyze_lines (fuel + 1) (pre ++ NUL :: post) pre.length count infos
      = some (pre ++ NUL :: post, count, infos) := by
  have e : strtok_r (pre ++ NUL :: post) none ['\r'] pre.length
      = ⟨pre ++ NUL :: post, none, pre.length⟩ :=
    strtok_r_none_eq _ pre [] post ['\r'] _ _ _ (by simp) (by simp) (by simp) (by simp)
  simp only [analyze_lines, e, analyze_loop_none]

/-- The blank line: one more slot is filled, with an empty key and a null value. -/
theorem analyze_lines_blank (fuel : Nat) (pre post : Mem) (count : Nat)
    (infos : List (Nat × information)) :
    analyze_lines (fuel + 2) (pre ++ '\n' :: '\r' :: NUL :: post) pre.length count infos
      = some (pre ++ '\n' :: NUL :: NUL :: post, count + 1,
          infos ++ [(count, ⟨some (pre.length + 1), none⟩)]) := by
  have e0 : strtok_r (pre ++ '\n' :: '\r' :: NUL :: post) none ['\r'] pre.length
      = ⟨pre ++ '\n' :: NUL :: NUL :: post, some pre.length, pre.length + 2⟩ :=
    strtok_r_cut_eq _ _ pre [] ['\n'] (NUL :: post) ['\r'] '\r' _ _ _ _
      (by simp) (by simp) (by simp) (by simp) (by simp) (by simp)
      (by simp; decide) (by simp) ⟨cr_ne_NUL, by simp⟩
  have e1 : strtok_r (pre ++ '\n' :: NUL :: NUL :: post) (some pre.length) [':', ' '] 0
      = ⟨pre ++ '\n' :: NUL :: NUL :: post, some pre.length, pre.length + 1⟩ :=
    strtok_r_last_eq _ pre [] ['\n'] (NUL :: post) [':', ' '] _ _ _ _
      (by simp) (by simp) (by simp) (by simp) (by simp) (by simp; decide) (by simp)
  have e2 : strtok_r (pre ++ '\n' :: NUL :: NUL :: post) none ['\r'] (pre.length + 1)
      = ⟨pre ++ '\n' :: NUL :: NUL :: post, none, pre.length + 1⟩ :=
    strtok_r_none_eq _ (pre ++ ['\n']) [] (NUL :: post) ['\r'] _ _ _
      (by simp) (by simp) (by simp) (by simp)
  have e3 : analyze_lines (fuel + 1) (pre ++ '\n' :: NUL :: NUL :: post) (pre.length + 2)
      (count + 1) (infos ++ [(count, ⟨some (pre.length + 1), none⟩)])
      = some (pre ++ '\n' :: NUL :: NUL :: post, count + 1,
          infos ++ [(count, ⟨some (pre.length + 1), none⟩)]) := by
    have := analyze_lines_end fuel (pre ++ ['\n', NUL]) post (count + 1)
      (infos ++ [(count, ⟨some (pre.length + 1), none⟩)])
    simpa using this
  rw [analyze_lines]
  simp only [e0]
  rw [analyze_loop_succ]
  simp only [e1, e2, Option.map_some', Option.map_none']
  exact e3


/-- One header line: the slot receives pointers to the key and to the value, and the
loop goes on with the text after the line. -/
theorem analyze_lines_header (fuel : Nat) (pre K V R : Mem) (count : Nat)
    (infos : List (Nat × information)) (h : Header (K, V)) :
    analyze_lines (fuel + 1) (pre ++ '\n' :: (K ++ ':' :: ' ' :: (V ++ '\r' :: R))) pre.length
        count infos
      = analyze_lines fuel (pre ++ '\n' :: (K ++ NUL :: ' ' :: (V ++ NUL :: R)))
          (pre.length + K.length + V.length + 4) (count + 1)
          (infos ++ [(count, ⟨some (pre.length + 1), some (pre.length + K.length + 3)⟩)]) := by
  obtain ⟨⟨_, hK⟩, hV⟩ := h
  simp only at hK hV
  have e0 : strtok_r (pre ++ '\n' :: (K ++ ':' :: ' ' :: (V ++ '\r' :: R))) none ['\r'] pre.length
      = ⟨pre ++ '\n' :: (K ++ ':' :: ' ' :: (V ++ NUL :: R)), some pre.length,
          pre.length + K.length + V.length + 4⟩ :=
    strtok_r_cut_eq _ _ pre [] ('\n' :: (K ++ ':' :: ' ' :: V)) R ['\r'] '\r' _ _ _ _
      (by simp) (by simp) (by simp) (by simp) (by simp; omega) (by simp)
      (by
        intro c hc
        simp only [List.mem_cons, List.mem_append] at hc
        rcases hc with rfl | hc | rfl | rfl | hc
        · decide
        · have := hK c hc; simp [this]
        · decide
        · decide
        · have := hV c hc; simp [this])
      (by simp) ⟨cr_ne_NUL, by simp⟩
  have e1 : strtok_r (pre ++ '\n' :: (K ++ ':' :: ' ' :: (V ++ NUL :: R))) (some pre.length)
        [':', ' '] 0
      = ⟨pre ++ '\n' :: (K ++ NUL :: ' ' :: (V ++ NUL :: R)), some pre.length,
          pre.length + K.length + 2⟩ :=
    strtok_r_cut_eq _ _ pre [] ('\n' :: K) (' ' :: (V ++ NUL :: R)) [':', ' '] ':' _ _ _ _
      (by simp) (by simp) (by simp) (by simp) (by simp; omega) (by simp)
      (by
        intro c hc
        simp only [List.mem_cons] at hc
        rcases hc with rfl | hc
        · decide
        · have := hK c hc; simp [this])
      (by simp) ⟨by decide, by simp⟩
  have e2 : strtok_r (pre ++ '\n' :: (K ++ NUL :: ' ' :: (V ++ NUL :: R))) none ['\r']
        (pre.length + K.length + 2)
      = ⟨pre ++ '\n' :: (K ++ NUL :: ' ' :: (V ++ NUL :: R)), some (pre.length + K.length + 2),
          pre.length + K.length + V.length + 3⟩ :=
    strtok_r_last_eq _ (pre ++ '\n' :: (K ++ [NUL])) [] (' ' :: V) R ['\r'] _ _ _ _
      (by simp) (by simp; omega) (by simp; omega) (by simp; omega) (by simp)
      (by
        intro c hc
        simp only [List.mem_cons] at hc
        rcases hc with rfl | hc
        · decide
        · have := hV c hc; simp [this])
      (by simp)
  rw [analyze_lines]
  simp only [e0]
  rw [analyze_loop_succ]
  simp only [e1, e2, Option.map_some']

/-- The loop of `analyze_request` on the header lines `hs`, the blank line (if any)
and the terminator: it returns, fills one slot per line and leaves in each slot
pointers to the key and the value of the line. -/
theorem analyze_lines_headers (blank : Bool) : ∀ (hs : List (List Char × List Char))
    (fuel : Nat) (pre post : Mem) (count : Nat) (infos : List (Nat × information)),
    (∀ h ∈ hs, Header h) → hs.length + 2 ≤ fuel →
    ∃ m extra, analyze_lines fuel (pre ++ rest_text hs blank post) pre.length count infos
        = some (m, count + hs.length + (if blank then 1 else 0), infos ++ extra)
      ∧ m.take pre.length = pre
      ∧ extra.map (header_strings m) = stored_headers hs count blank := by
  intro hs
  induction hs with
  | nil =>
    intro fuel pre post count infos _ hfuel
    obtain ⟨f, rfl⟩ : ∃ f, fuel = f + 2 := ⟨fuel - 2, by simp at hfuel; omega⟩
    cases blank with
    | false =>
      refine ⟨pre ++ NUL :: post, [], ?_, by simp, by simp [stored_headers]⟩
      simpa [rest_text] using analyze_lines_end (f + 1) pre post count infos
    | true =>
      refine ⟨pre ++ '\n' :: NUL :: NUL :: post, [(count, ⟨some (pre.length + 1), none⟩)],
        ?_, by simp, ?_⟩
      · simpa [rest_text] using analyze_lines_blank f pre post count infos
      · have := cstr_append_cons (pre ++ ['\n']) [] (NUL :: post) (by simp)
        simp only [List.append_nil, List.length_append, List.length_singleton,
          List.append_assoc, List.singleton_append] at this
        simp [stored_headers, header_strings, this]
  | cons h hs ih =>
    intro fuel pre post count infos hall hfuel
    obtain ⟨f, rfl⟩ : ∃ f, fuel = f + 1 := ⟨fuel - 1, by simp at hfuel; omega⟩
    obtain ⟨K, V⟩ := h
    have hh : Header (K, V) := hall (K, V) (List.mem_cons_self _ _)
    have hstep := analyze_lines_header f pre K V (rest_text hs blank post) count infos hh
    have hlen : (pre ++ '\n' :: (K ++ NUL :: ' ' :: (V ++ [NUL]))).length
        = pre.length + K.length + V.length + 4 := by simp; omega
    have hmem : pre ++ '\n' :: (K ++ NUL :: ' ' :: (V ++ NUL :: rest_text hs blank post))
        = (pre ++ '\n' :: (K ++ NUL :: ' ' :: (V ++ [NUL]))) ++ rest_text hs blank post := by simp
    obtain ⟨m, extra, hrun, htake, hstr⟩ := ih f
      (pre ++ '\n' :: (K ++ NUL :: ' ' :: (V ++ [NUL]))) post (count + 1)
      (infos ++ [(count, ⟨some (pre.length + 1), some (pre.length + K.length + 3)⟩)])
      (fun x hx => hall x (List.mem_cons_of_mem _ hx)) (by simp at hfuel ⊢; omega)
    rw [hlen, ← hmem] at hrun
    refine ⟨m, (count, ⟨some (pre.length + 1), some (pre.length + K.length + 3)⟩) :: extra,
      ?_, ?_, ?_⟩
    · simp only [rest_text]
      rw [hstep, hrun]
      simp [Nat.add_assoc, Nat.add_comm 1]
    · have := congrArg (List.take pre.length) htake
      rw [List.take_take, List.take_left] at this
      rw [Nat.min_eq_left (by simp)] at this
      exact this
    · have hK : cstr m (pre.length + 1) = K := by
        have := cstr_of_take m (pre ++ ['\n']) K (' ' :: (V ++ [NUL])) _ (by rw [htake]; simp)
          (fun c hc => (hh.1.2 c hc).2.2.2.2)
        simpa using this
      have hV : cstr m (pre.length + K.length + 3) = V := by
        have := cstr_of_take m (pre ++ '\n' :: (K ++ [NUL, ' '])) V [] _ (by rw [htake]; simp)
          (fun c hc => (hh.2 c hc).2.2)
        have hl : (pre ++ '\n' :: (K ++ [NUL, ' '])).length = pre.length + K.length + 3 := by
          simp; omega
        rw [hl] at this
        exact this
      simp only [List.map_cons, stored_headers, hstr]
      simp [header_strings, hK, hV]

/-! ## The request line -/

/-- On a buffer that starts with `COMMAND SP TARGET SP VERSION CR`, the three calls for
the request line succeed; `analyze_request` returns what the loop makes of the rest. -/
theorem analyze_request_line (C T V rest : List Char)
    (hC : ∀ c ∈ C, c ≠ NUL ∧ c ∉ [' ']) (hCne : C ≠ [])
    (hT : ∀ c ∈ T, c ≠ NUL ∧ c ∉ [' ']) (hTne : T ≠ [])
    (hV : ∀ c ∈ V, c ≠ NUL ∧ c ∉ ['\r']) (hVne : V ≠ []) :
    analyze_request true (C ++ ' ' :: (T ++ ' ' :: (V ++ '\r' :: rest)))
      = (analyze_lines ((C ++ NUL :: (T ++ NUL :: (V ++ NUL :: rest))).length + 2)
          (C ++ NUL :: (T ++ NUL :: (V ++ NUL :: rest)))
          (C ++ NUL :: (T ++ NUL :: (V ++ [NUL]))).length 0 []).map
        (fun r => (r.1, some ⟨0, C.length + 1, C.length + T.length + 2, r.2.2, (r.2.1 : Int) - 1⟩)) := by
  have e1 : strtok_r (C ++ ' ' :: (T ++ ' ' :: (V ++ '\r' :: rest))) (some 0) [' '] 0
      = ⟨C ++ NUL :: (T ++ ' ' :: (V ++ '\r' :: rest)), some 0, C.length + 1⟩ :=
    strtok_r_cut_eq _ _ [] [] C (T ++ ' ' :: (V ++ '\r' :: rest)) [' '] ' ' _ _ _ _
      (by simp) (by simp) rfl (by simp) (by simp) (by simp) hC hCne ⟨space_ne_NUL, by simp⟩
  have e2 : strtok_r (C ++ NUL :: (T ++ ' ' :: (V ++ '\r' :: rest))) none [' '] (C.length + 1)
      = ⟨C ++ NUL :: (T ++ NUL :: (V ++ '\r' :: rest)), some (C.length + 1),
          C.length + T.length + 2⟩ :=
    strtok_r_cut_eq _ _ (C ++ [NUL]) [] T (V ++ '\r' :: rest) [' '] ' ' _ _ _ _
      (by simp) (by simp) (by simp) (by simp) (by simp; omega) (by simp) hT hTne
      ⟨space_ne_NUL, by simp⟩
  have e3 : strtok_r (C ++ NUL :: (T ++ NUL :: (V ++ '\r' :: rest))) none ['\r']
        (C.length + T.length + 2)
      = ⟨C ++ NUL :: (T ++ NUL :: (V ++ NUL :: rest)), some (C.length + T.length + 2),
          (C ++ NUL :: (T ++ NUL :: (V ++ [NUL]))).length⟩ :=
    strtok_r_cut_eq _ _ (C ++ NUL :: (T ++ [NUL])) [] V rest ['\r'] '\r' _ _ _ _
      (by simp) (by simp) (by simp; omega) (by simp; omega) (by simp; omega) (by simp) hV hVne
      ⟨cr_ne_NUL, by simp⟩
  simp only [analyze_request, Bool.not_true, Bool.false_eq_true, if_false, e1, e2, e3]
  rw [strtok_r_length]
  simp only [analyze_lines]
  cases analyze_loop _ _ _ _ 0 [] with
  | none => rfl
  | some r => rfl

theorem length_le_rest_text (blank : Bool) (post : Mem) :
    ∀ hs : List (List Char × List Char), hs.length ≤ (rest_text hs blank post).length := by
  intro hs
  induction hs with
  | nil => simp
  | cons h hs ih => simp [rest_text]; omega

theorem Token.no_space {t : List Char} (h : Token t) : ∀ c ∈ t, c ≠ NUL ∧ c ∉ [' '] :=
  fun c hc => ⟨(h.2 c hc).2.2.2, by simpa using (h.2 c hc).1⟩

theorem Token.no_cr {t : List Char} (h : Token t) : ∀ c ∈ t, c ≠ NUL ∧ c ∉ ['\r'] :=
  fun c hc => ⟨(h.2 c hc).2.2.2, by simpa using (h.2 c hc).2.1⟩

/-- `analyze_request` on the buffer of a whole request: request line, header lines,
blank line (if `blank`), terminator. -/
theorem analyze_request_http (C T V : List Char) (hs : List (List Char × List Char))
    (blank : Bool) (post : Mem) (hC : Token C) (hT : Token T) (hV : Token V)
    (hall : ∀ h ∈ hs, Header h) :
    ∃ m req, analyze_request true (C ++ ' ' :: (T ++ ' ' :: (V ++ '\r' :: rest_text hs blank post)))
        = some (m, some req)
      ∧ cstr m req.command = C ∧ cstr m req.site = T ∧ cstr m req.httpv = V
      ∧ req.infos.map (header_strings m) = stored_headers hs 0 blank
      ∧ req.info_length = (hs.length : Int) + (if blank then 1 else 0) - 1 := by
  have hmem : C ++ NUL :: (T ++ NUL :: (V ++ NUL :: rest_text hs blank post))
      = (C ++ NUL :: (T ++ NUL :: (V ++ [NUL]))) ++ rest_text hs blank post := by simp
  obtain ⟨m, extra, hrun, htake, hstr⟩ := analyze_lines_headers blank hs
    ((C ++ NUL :: (T ++ NUL :: (V ++ NUL :: rest_text hs blank post))).length + 2)
    (C ++ NUL :: (T ++ NUL :: (V ++ [NUL]))) post 0 [] hall
    (by have := length_le_rest_text blank post hs; simp; omega)
  rw [← hmem] at hrun
  refine ⟨m, ⟨0, C.length + 1, C.length + T.length + 2, extra,
    ((0 + hs.length + (if blank then 1 else 0) : Nat) : Int) - 1⟩, ?_, ?_, ?_, ?_, ?_, ?_⟩
  · rw [analyze_request_line C T V _ hC.no_space hC.1 hT.no_space hT.1 hV.no_cr hV.1, hrun]
    simp
  · have := cstr_of_take m [] C (T ++ NUL :: (V ++ [NUL])) _ (by rw [htake]; simp)
      (fun c hc => (hC.2 c hc).2.2.2)
    simpa using this
  · have := cstr_of_take m (C ++ [NUL]) T (V ++ [NUL]) _ (by rw [htake]; simp)
      (fun c hc => (hT.2 c hc).2.2.2)
    simpa using this
  · have := cstr_of_take m (C ++ NUL :: (T ++ [NUL])) V [] _ (by rw [htake]; simp)
      (fun c hc => (hV.2 c hc).2.2.2)
    have hl : (C ++ NUL :: (T ++ [NUL])).length = C.length + T.length + 2 := by simp; omega
    rw [hl] at this
    exact this
  · simpa using hstr
  · cases blank <;> simp

/-! ## From the request on the wire to the buffer that is parsed -/

/-- `read_from` on a request that ends with a line feed and arrives in the pieces
`chunks`: the buffer holds the request with its last byte replaced by the terminator,
and the value returned is the number of bytes received before the last piece. -/
theorem read_from_deliver (chunks : List (List Char)) (request : List Char) (buf : Mem)
    (len : Int) (h : Delivers chunks request) (hlf : request.getLast? = some '\n') :
    (read_from (chunks.map Recv.bytes) buf len).buf
        = request.dropLast ++ NUL :: buf.drop request.length
      ∧ (read_from (chunks.map Recv.bytes) buf len).ret = (chunks.dropLast.flatten.length : Int) := by
  obtain ⟨hflat, hne, hnl⟩ := h
  cases chunks with
  | nil => simp at hflat; subst hflat; simp at hlf
  | cons c rest =>
    have := read_loop_deliver len rest [] c buf (recv_store buf 0 (Recv.bytes c)) 0 len
      [⟨0, len, (Recv.bytes c).readlen⟩] (hne c (List.mem_cons_self _ _))
      (fun x hx => hne x (List.mem_cons_of_mem _ hx)) hnl
      (by simpa [← hflat] using hlf) (by simp [recv_store]) rfl
    simp only [List.map_cons, read_from]
    rw [this.1, this.2, ← hflat]
    simp

theorem tail_text_buffer (blank : Bool) (post : Mem) : ∀ hs : List (List Char × List Char),
    ('\n' :: tail_text hs blank).dropLast ++ NUL :: post = rest_text hs blank post
      ∧ ('\n' :: tail_text hs blank).getLast? = some '\n' := by
  intro hs
  induction hs with
  | nil => cases blank <;> simp [tail_text, rest_text, List.dropLast]
  | cons h hs ih =>
    have e : '\n' :: tail_text (h :: hs) blank
        = ('\n' :: (h.1 ++ ':' :: ' ' :: (h.2 ++ ['\r']))) ++ '\n' :: tail_text hs blank := by
      simp [tail_text, header_line]
    rw [e, List.dropLast_append_cons, List.getLast?_append_cons]
    refine ⟨?_, ih.2⟩
    rw [List.append_assoc, ih.1]
    simp [rest_text]

/-- The buffer `read_from` leaves for a request is the one `analyze_request_http` is
about, and a request ends with a line feed. -/
theorem http_text_buffer (C T V : List Char) (hs : List (List Char × List Char))
    (blank : Bool) (post : Mem) :
    (http_text C T V hs blank).dropLast ++ NUL :: post
        = C ++ ' ' :: (T ++ ' ' :: (V ++ '\r' :: rest_text hs blank post))
      ∧ (http_text C T V hs blank).getLast? = some '\n' := by
  have e : http_text C T V hs blank
      = (C ++ ' ' :: (T ++ ' ' :: (V ++ ['\r']))) ++ '\n' :: tail_text hs blank := by
    simp [http_text, request_line]
  rw [e, List.dropLast_append_cons, List.getLast?_append_cons]
  refine ⟨?_, (tail_text_buffer blank post hs).2⟩
  rw [List.append_assoc, (tail_text_buffer blank post hs).1]
  simp

/-- Reading then parsing a request: the composition all the request theorems use. -/
theorem read_then_analyze (C T V : List Char) (hs : List (List Char × List Char))
    (blank : Bool) (chunks : List (List Char)) (buf : Mem) (len : Int)
    (hC : Token C) (hT : Token T) (hV : Token V) (hall : ∀ h ∈ hs, Header h)
    (hd : Delivers chunks (http_text C T V hs blank)) :
    0 ≤ (read_from (chunks.map Recv.bytes) buf len).ret
      ∧ ∃ m req, analyze_request true (read_from (chunks.map Recv.bytes) buf len).buf
          = some (m, some req)
        ∧ cstr m req.command = C ∧ cstr m req.site = T ∧ cstr m req.httpv = V
        ∧ req.infos.map (header_strings m) = stored_headers hs 0 blank
        ∧ req.info_length = (hs.length : Int) + (if blank then 1 else 0) - 1 := by
  have hb := http_text_buffer C T V hs blank (buf.drop (http_text C T V hs blank).length)
  have hr := read_from_deliver chunks _ buf len hd hb.2
  rw [hr.1, hr.2, hb.1]
  exact ⟨by omega, analyze_request_http C T V hs blank _ hC hT hV hall⟩

/-! ## Slots of the header list, and small facts about requests -/

theorem stored_headers_slots (blank : Bool) : ∀ (hs : List (List Char × List Char)) (count : Nat),
    ∀ x ∈ stored_headers hs count blank,
      count ≤ x.1 ∧ x.1 < count + hs.length + (if blank then 1 else 0) := by
  intro hs
  induction hs with
  | nil =>
    intro count x hx
    cases blank <;> simp [stored_headers] at hx
    subst hx; simp
  | cons h hs ih =>
    intro count x hx
    simp only [stored_headers, List.mem_cons] at hx
    rcases hx with rfl | hx
    · simp; omega
    · have := ih (count + 1) x hx
      simp only [List.length_cons]
      omega

theorem stored_headers_getElem? (blank : Bool) : ∀ (hs : List (List Char × List Char))
    (count i : Nat) (hi : i < hs.length),
    (stored_headers hs count blank)[i]? = some (count + i, some hs[i].1, some hs[i].2) := by
  intro hs
  induction hs with
  | nil => intro count i hi; simp at hi
  | cons h hs ih =>
    intro count i hi
    cases i with
    | zero => simp [stored_headers]
    | succ i =>
      simp only [stored_headers, List.getElem?_cons_succ, List.getElem_cons_succ]
      rw [ih (count + 1) i (by simpa using hi)]
      simp; omega

theorem slot_of_header_strings (m : Mem) (infos : List (Nat × information))
    (l : List (Nat × Option (List Char) × Option (List Char)))
    (h : infos.map (header_strings m) = l) :
    ∀ e ∈ infos, ∃ x ∈ l, x.1 = e.1 := by
  intro e he
  exact ⟨header_strings m e, by rw [← h]; exact List.mem_map_of_mem _ he, rfl⟩

theorem Delivers_single (request : List Char) (h : request ≠ []) : Delivers [request] request :=
  ⟨by simp, by simpa using h, by simp⟩

theorem http_text_ne_nil (C T V : List Char) (hs : List (List Char × List Char)) (blank : Bool) :
    http_text C T V hs blank ≠ [] := by
  intro h
  have := (http_text_buffer C T V hs blank []).2
  rw [h] at this
  simp at this

/-- With a single token before the terminator the target is missing: `NULL`. -/
theorem analyze_request_one_token (t post : Mem) (ht : ∀ c ∈ t, c ≠ NUL ∧ c ∉ [' '])
    (hne : t ≠ []) :
    analyze_request true (t ++ NUL :: post) = some (t ++ NUL :: post, none) := by
  have e1 : strtok_r (t ++ NUL :: post) (some 0) [' '] 0 = ⟨t ++ NUL :: post, some 0, t.length⟩ :=
    strtok_r_last_eq _ [] [] t post [' '] _ _ _ _ (by simp) rfl (by simp) (by simp) (by simp)
      ht hne
  have e2 : strtok_r (t ++ NUL :: post) none [' '] t.length = ⟨t ++ NUL :: post, none, t.length⟩ :=
    strtok_r_none_eq _ t [] post [' '] _ _ _ (by simp) (by simp) (by simp) (by simp)
  simp only [analyze_request, Bool.not_true, Bool.false_eq_true, if_false, e1, e2]

theorem length_tail_text_replicate (h : List Char × List Char) (blank : Bool) : ∀ n : Nat,
    (tail_text (List.replicate n h) blank).length
      = n * (header_line h).length + (if blank then 2 else 0) := by
  intro n
  induction n with
  | zero => cases blank <;> simp [tail_text]
  | succ n ih =>
    simp only [List.replicate_succ, tail_text, List.length_append, ih]
    rw [Nat.add_mul, Nat.one_mul]
    omega

/-- A header line that is cut short by a terminator: its slot is filled and the loop
ends. -/
theorem analyze_lines_header_end (fuel : Nat) (pre K V post : Mem) (count : Nat)
    (infos : List (Nat × information)) (h : Header (K, V)) :
    analyze_lines (fuel + 2) (pre ++ '\n' :: (K ++ ':' :: ' ' :: (V ++ NUL :: post))) pre.length
        count infos
      = some (pre ++ '\n' :: (K ++ NUL :: ' ' :: (V ++ NUL :: post)), count + 1,
          infos ++ [(count, ⟨some (pre.length + 1), some (pre.length + K.length + 3)⟩)]) := by
  obtain ⟨⟨_, hK⟩, hV⟩ := h
  simp only at hK hV
  have e0 : strtok_r (pre ++ '\n' :: (K ++ ':' :: ' ' :: (V ++ NUL :: post))) none ['\r'] pre.length
      = ⟨pre ++ '\n' :: (K ++ ':' :: ' ' :: (V ++ NUL :: post)), some pre.length,
          pre.length + K.length + V.length + 3⟩ :=
    strtok_r_last_eq _ pre [] ('\n' :: (K ++ ':' :: ' ' :: V)) post ['\r'] _ _ _ _
      (by simp) (by simp) (by simp) (by simp; omega) (by simp)
      (by
        intro c hc
        simp only [List.mem_cons, List.mem_append] at hc
        rcases hc with rfl | hc | rfl | rfl | hc
        · decide
        · have := hK c hc; simp [this]
        · decide
        · decide
        · have := hV c hc; simp [this])
      (by simp)
  have e1 : strtok_r (pre ++ '\n' :: (K ++ ':' :: ' ' :: (V ++ NUL :: post))) (some pre.length)
        [':', ' '] 0
      = ⟨pre ++ '\n' :: (K ++ NUL :: ' ' :: (V ++ NUL :: post)), some pre.length,
          pre.length + K.length + 2⟩ :=
    strtok_r_cut_eq _ _ pre [] ('\n' :: K) (' ' :: (V ++ NUL :: post)) [':', ' '] ':' _ _ _ _
      (by simp) (by simp) (by simp) (by simp) (by simp; omega) (by simp)
      (by
        intro c hc
        simp only [List.mem_cons] at hc
        rcases hc with rfl | hc
        · decide
        · have := hK c hc; simp [this])
      (by simp) ⟨by decide, by simp⟩
  have e2 : strtok_r (pre ++ '\n' :: (K ++ NUL :: ' ' :: (V ++ NUL :: post))) none ['\r']
        (pre.length + K.length + 2)
      = ⟨pre ++ '\n' :: (K ++ NUL :: ' ' :: (V ++ NUL :: post)), some (pre.length + K.length + 2),
          pre.length + K.length + V.length + 3⟩ :=
    strtok_r_last_eq _ (pre ++ '\n' :: (K ++ [NUL])) [] (' ' :: V) post ['\r'] _ _ _ _
      (by simp) (by simp; omega) (by simp; omega) (by simp; omega) (by simp)
      (by
        intro c hc
        simp only [List.mem_cons] at hc
        rcases hc with rfl | hc
        · decide
        · have := hV c hc; simp [this])
      (by simp)
  have e3 := analyze_lines_end fuel (pre ++ '\n' :: (K ++ NUL :: ' ' :: V)) post (count + 1)
    (infos ++ [(count, ⟨some (pre.length + 1), some (pre.length + K.length + 3)⟩)])
  have hl : (pre ++ '\n' :: (K ++ NUL :: ' ' :: V)).length = pre.length + K.length + V.length + 3 := by
    simp; omega
  rw [hl] at e3
  simp only [List.append_assoc, List.cons_append] at e3
  rw [analyze_lines]
  simp only [e0]
  rw [analyze_loop_succ]
  simp only [e1, e2, Option.map_some']
  exact e3

/-- `analyze_request` on a buffer whose string stops right after the value of the
first header line: one slot, holding that key and that value. -/
theorem analyze_request_header_end (C T V K V1 post : Mem)
    (hC : Token C) (hT : Token T) (hV : Token V) (h : Header (K, V1)) :
    returned_headers (analyze_request true
        (C ++ ' ' :: (T ++ ' ' :: (V ++ '\r' :: '\n' :: (K ++ ':' :: ' ' :: (V1 ++ NUL :: post))))))
      = some (some [(0, some K, some V1)]) := by
  rw [analyze_request_line C T V _ hC.no_space hC.1 hT.no_space hT.1 hV.no_cr hV.1]
  have hmem : C ++ NUL :: (T ++ NUL :: (V ++ NUL :: '\n' :: (K ++ ':' :: ' ' :: (V1 ++ NUL :: post))))
      = (C ++ NUL :: (T ++ NUL :: (V ++ [NUL]))) ++ '\n' :: (K ++ ':' :: ' ' :: (V1 ++ NUL :: post)) := by
    simp
  obtain ⟨f, hf⟩ : ∃ f, (C ++ NUL :: (T ++ NUL :: (V ++ NUL :: '\n' ::
      (K ++ ':' :: ' ' :: (V1 ++ NUL :: post))))).length + 2 = f + 2 := ⟨_, rfl⟩
  rw [hf, hmem, analyze_lines_header_end f _ K V1 post 0 [] h]
  have hK : cstr ((C ++ NUL :: (T ++ NUL :: (V ++ [NUL]))) ++ '\n' :: (K ++ NUL :: ' ' :: (V1 ++ NUL :: post)))
      ((C ++ NUL :: (T ++ NUL :: (V ++ [NUL]))).length + 1) = K := by
    have := cstr_append_cons ((C ++ NUL :: (T ++ NUL :: (V ++ [NUL]))) ++ ['\n']) K
      (' ' :: (V1 ++ NUL :: post)) (fun c hc => (h.1.2 c hc).2.2.2.2)
    simpa using this
  have hV1 : cstr ((C ++ NUL :: (T ++ NUL :: (V ++ [NUL]))) ++ '\n' :: (K ++ NUL :: ' ' :: (V1 ++ NUL :: post)))
      ((C ++ NUL :: (T ++ NUL :: (V ++ [NUL]))).length + K.length + 3) = V1 := by
    have := cstr_append_cons ((C ++ NUL :: (T ++ NUL :: (V ++ [NUL]))) ++ '\n' :: (K ++ [NUL, ' '])) V1
      post (fun c hc => (h.2 c hc).2.2)
    have hl : ((C ++ NUL :: (T ++ NUL :: (V ++ [NUL]))) ++ '\n' :: (K ++ [NUL, ' '])).length
        = (C ++ NUL :: (T ++ NUL :: (V ++ [NUL]))).length + K.length + 3 := by
      simp; omega
    rw [hl] at this
    simpa using this
  simp only [returned_headers, Option.map_some', List.nil_append, List.map_cons, List.map_nil,
    header_strings, hK, hV1]

/-! ## The connection handler -/

/-- The run of `process_connection` once the request has been read and parsed. -/
theorem process_connection_reply (buf : Mem) (script : List Recv) (sendres : Nat → Int)
    (m : Mem) (req : http_request)
    (hread : 0 ≤ (read_from script buf 10239).ret)
    (hparse : analyze_request true (read_from script buf 10239).buf = some (m, some req)) :
    process_connection (some buf) script true sendres
      = some ([.info_request (cstr m req.command) (cstr m req.site)] ++ send_reply sendres
          ++ [.close, .info_closed, .free_req] ++ [.close]) := by
  have h : ¬ (read_from script buf 10239).ret < 0 := by omega
  simp only [process_connection, h, if_false, hparse]

theorem send_reply_ok (sendres : Nat → Int) (h0 : sendres 0 ≠ -1) (h1 : sendres 1 ≠ -1) :
    send_reply sendres
      = [.send status_line (sendres 0), .send reply_body (sendres 1)] := by
  simp [send_reply, say_to, h0, h1]

theorem closes_send_reply (sendres : Nat → Int) : closes (send_reply sendres) = 0 := by
  unfold send_reply say_to closes
  by_cases h0 : sendres 0 = -1
  · simp [h0]
  · by_cases h1 : sendres 1 = -1
    · simp [h0, h1]
    · simp [h0, h1]

/-! ## `read_from`: error reporting and bounds -/

theorem cstr_set_zero (buf : Mem) : cstr (buf.set 0 NUL) 0 = [] := by
  cases buf <;> simp [cstr]

theorem read_finish_calls (len : Int) (buf : Mem) (ptr : Nat) (slen readlen : Int)
    (calls : List RecvCall) : (read_finish len buf ptr slen readlen calls).calls = calls := by
  unfold read_finish
  split
  · rfl
  · split <;> rfl

/-- The calls already made stay at the front of the log. -/
theorem read_loop_calls (len : Int) : ∀ (script : List Recv) (buf : Mem) (ptr : Nat) (slen : Int)
    (cur : Recv) (calls : List RecvCall),
    ∃ more, (read_loop len script buf ptr slen cur calls).calls = calls ++ more := by
  intro script
  induction script with
  | nil =>
    intro buf ptr slen cur calls
    by_cases h : 0 < cur.readlen ∧ charAt buf (ptr + cur.readlen.toNat - 1) ≠ '\n'
    · rw [read_loop_eof _ _ _ _ _ _ h, read_finish_calls]; exact ⟨_, rfl⟩
    · rw [read_loop_stop _ _ _ _ _ _ _ h, read_finish_calls]; exact ⟨[], by simp⟩
  | cons r rest ih =>
    intro buf ptr slen cur calls
    by_cases h : 0 < cur.readlen ∧ charAt buf (ptr + cur.readlen.toNat - 1) ≠ '\n'
    · rw [read_loop_step _ _ _ _ _ _ _ _ h]
      obtain ⟨more, hm⟩ := ih (recv_store buf (ptr + cur.readlen.toNat) r)
        (ptr + cur.readlen.toNat) (slen - cur.readlen) r
        (calls ++ [⟨ptr + cur.readlen.toNat, slen - cur.readlen, r.readlen⟩])
      exact ⟨_, by rw [hm, List.append_assoc]⟩
    · rw [read_loop_stop _ _ _ _ _ _ _ h, read_finish_calls]; exact ⟨[], by simp⟩

theorem read_finish_reports (len : Int) (buf : Mem) (ptr : Nat) (slen readlen : Int)
    (calls : List RecvCall) (last : RecvCall) (hlast : calls.getLast? = some last)
    (hr : last.readlen = readlen) (hs : slen ≤ len) :
    Reports (read_finish len buf ptr slen readlen calls) := by
  unfold read_finish
  subst hr
  by_cases h1 : last.readlen < 0
  · rw [if_pos h1]
    exact ⟨last, hlast, by simp [h1], fun _ => rfl, fun h => by omega⟩
  · rw [if_neg h1]
    by_cases h2 : last.readlen = 0
    · rw [if_pos h2]
      refine ⟨last, hlast, ?_, fun h => absurd h h1, fun _ => ⟨?_, cstr_set_zero buf⟩⟩
      · constructor
        · intro h; simp only at h; omega
        · intro h; exact absurd h h1
      · simp only; omega
    · rw [if_neg h2]
      refine ⟨last, hlast, ?_, fun h => absurd h h1, fun h => absurd h h2⟩
      constructor
      · intro h; simp only at h; omega
      · intro h; exact absurd h h1

theorem read_loop_reports (len : Int) : ∀ (script : List Recv) (buf : Mem) (ptr : Nat)
    (slen : Int) (cur : Recv) (calls : List RecvCall) (last : RecvCall),
    calls.getLast? = some last → last.readlen = cur.readlen → slen ≤ len →
    Reports (read_loop len script buf ptr slen cur calls) := by
  intro script
  induction script with
  | nil =>
    intro buf ptr slen cur calls last hlast hr hs
    by_cases h : 0 < cur.readlen ∧ charAt buf (ptr + cur.readlen.toNat - 1) ≠ '\n'
    · rw [read_loop_eof _ _ _ _ _ _ h]
      exact read_finish_reports _ _ _ _ _ _ ⟨ptr + cur.readlen.toNat, slen - cur.readlen, 0⟩
        (by simp) rfl (by omega)
    · rw [read_loop_stop _ _ _ _ _ _ _ h]
      exact read_finish_reports _ _ _ _ _ _ last hlast hr hs
  | cons r rest ih =>
    intro buf ptr slen cur calls last hlast hr hs
    by_cases h : 0 < cur.readlen ∧ charAt buf (ptr + cur.readlen.toNat - 1) ≠ '\n'
    · rw [read_loop_step _ _ _ _ _ _ _ _ h]
      exact ih _ _ _ _ _ ⟨ptr + cur.readlen.toNat, slen - cur.readlen, r.readlen⟩
        (by simp) rfl (by omega)
    · rw [read_loop_stop _ _ _ _ _ _ _ h]
      exact read_finish_reports _ _ _ _ _ _ last hlast hr hs

theorem read_finish_term (len : Int) (buf : Mem) (ptr : Nat) (slen readlen : Int)
    (calls : List RecvCall) (hlen : 1 ≤ len) (hb : (ptr : Int) + readlen ≤ len) :
    ∀ i, (read_finish len buf ptr slen readlen calls).term = some i → (i : Int) < len := by
  intro i hi
  unfold read_finish at hi
  by_cases h1 : readlen < 0
  · rw [if_pos h1] at hi; cases hi
  · rw [if_neg h1] at hi
    by_cases h2 : readlen = 0
    · rw [if_pos h2] at hi
      simp only [Option.some.injEq] at hi
      omega
    · rw [if_neg h2] at hi
      simp only [Option.some.injEq] at hi
      omega

theorem read_loop_in_bounds (len : Int) (hlen : 1 ≤ len) : ∀ (script : List Recv) (buf : Mem)
    (ptr : Nat) (slen : Int) (cur : Recv) (calls : List RecvCall),
    (∀ c ∈ (read_loop len script buf ptr slen cur calls).calls, c.readlen ≤ c.slen) →
    (⟨ptr, slen, cur.readlen⟩ : RecvCall) ∈ calls → (ptr : Int) = len - slen → 0 ≤ slen →
    (∀ c ∈ calls, InBounds len c) →
    (∀ c ∈ (read_loop len script buf ptr slen cur calls).calls, InBounds len c)
      ∧ ∀ i, (read_loop len script buf ptr slen cur calls).term = some i → (i : Int) < len := by
  intro script
  induction script with
  | nil =>
    intro buf ptr slen cur calls hhon hmem hps hs hin
    have hcur : cur.readlen ≤ slen := by
      obtain ⟨more, hm⟩ := read_loop_calls len [] buf ptr slen cur calls
      exact hhon ⟨ptr, slen, cur.readlen⟩ (by rw [hm]; exact List.mem_append_left _ hmem)
    by_cases h : 0 < cur.readlen ∧ charAt buf (ptr + cur.readlen.toNat - 1) ≠ '\n'
    · rw [read_loop_eof _ _ _ _ _ _ h, read_finish_calls]
      have hp : ((ptr + cur.readlen.toNat : Nat) : Int) = ptr + cur.readlen := by
        have := h.1; omega
      refine ⟨?_, read_finish_term _ _ _ _ _ _ hlen (by omega)⟩
      intro c hc
      rcases List.mem_append.mp hc with hc | hc
      · exact hin c hc
      · simp only [List.mem_singleton] at hc
        subst hc
        exact ⟨by simp only; omega, by simp only; omega, by simp only; omega⟩
    · rw [read_loop_stop _ _ _ _ _ _ _ h, read_finish_calls]
      exact ⟨hin, read_finish_term _ _ _ _ _ _ hlen (by omega)⟩
  | cons r rest ih =>
    intro buf ptr slen cur calls hhon hmem hps hs hin
    have hcur : cur.readlen ≤ slen := by
      obtain ⟨more, hm⟩ := read_loop_calls len (r :: rest) buf ptr slen cur calls
      exact hhon ⟨ptr, slen, cur.readlen⟩ (by rw [hm]; exact List.mem_append_left _ hmem)
    by_cases h : 0 < cur.readlen ∧ charAt buf (ptr + cur.readlen.toNat - 1) ≠ '\n'
    · rw [read_loop_step _ _ _ _ _ _ _ _ h] at hhon ⊢
      have hp : ((ptr + cur.readlen.toNat : Nat) : Int) = ptr + cur.readlen := by
        have := h.1; omega
      have hr : r.readlen ≤ slen - cur.readlen := by
        obtain ⟨more, hm⟩ := read_loop_calls len rest (recv_store buf (ptr + cur.readlen.toNat) r)
          (ptr + cur.readlen.toNat) (slen - cur.readlen) r
          (calls ++ [⟨ptr + cur.readlen.toNat, slen - cur.readlen, r.readlen⟩])
        exact hhon ⟨ptr + cur.readlen.toNat, slen - cur.readlen, r.readlen⟩
          (by rw [hm]; simp)
      apply ih _ _ _ _ _ hhon (by simp) (by omega) (by omega)
      intro c hc
      rcases List.mem_append.mp hc with hc | hc
      · exact hin c hc
      · simp only [List.mem_singleton] at hc
        subst hc
        exact ⟨by simp only; omega, by simp only; omega, by simp only; omega⟩
    · rw [read_loop_stop _ _ _ _ _ _ _ h, read_finish_calls]
      exact ⟨hin, read_finish_term _ _ _ _ _ _ hlen (by omega)⟩

/-! ## The tokenizer against the wording of the specification -/

theorem dropWhile_head_not (p : Char → Bool) : ∀ (s : List Char) (c : Char) (cs : List Char),
    s.dropWhile p = c :: cs → p c = false := by
  intro s
  induction s with
  | nil => intro c cs h; simp at h
  | cons x xs ih =>
    intro c cs h
    by_cases hx : p x = true
    · rw [List.dropWhile_cons_of_pos hx] at h; exact ih c cs h
    · rw [List.dropWhile_cons_of_neg hx] at h
      simp only [List.cons.injEq] at h
      rw [← h.1]; simpa using hx

/-- `strtok_r` when the specification finds no token. -/
theorem strtok_r_next_token_none (pre s post D : List Char) (st : Option Nat) (save : Nat)
    (hst : st.getD save = pre.length) (hs : ∀ c ∈ s, c ≠ NUL) (h : next_token D s = none) :
    (strtok_r (pre ++ s ++ NUL :: post) st D save).tok = none := by
  have hall : ∀ c ∈ s, c ≠ NUL ∧ c ∈ D := by
    unfold next_token at h
    cases hd : s.dropWhile (fun c => decide (c ∈ D)) with
    | nil =>
      intro c hc
      exact ⟨hs c hc, by simpa using (List.dropWhile_eq_nil_iff.mp hd) c hc⟩
    | cons c cs => rw [hd] at h; simp at h
  rw [strtok_r_none pre s post D st save hst hall]

/-- `strtok_r` when the specification finds a token: that token is returned, after the
delimiters `a` in front of it, and scanning will resume on the specification's rest. -/
theorem strtok_r_next_token_some (pre s post D t r : List Char) (st : Option Nat) (save : Nat)
    (hst : st.getD save = pre.length) (hs : ∀ c ∈ s, c ≠ NUL)
    (h : next_token D s = some (t, r)) :
    ∃ a pre1, strtok_r (pre ++ s ++ NUL :: post) st D save
        = ⟨pre1 ++ r ++ NUL :: post, some (pre ++ a).length, pre1.length⟩
      ∧ (∀ c ∈ r, c ≠ NUL) ∧ (∀ c ∈ t, c ≠ NUL)
      ∧ (pre1 = pre ++ a ++ t ++ [NUL] ∨ (pre1 = pre ++ a ++ t ∧ r = [])) := by
  unfold next_token at h
  have hsplit := List.takeWhile_append_dropWhile (fun c => decide (c ∈ D)) s
  have ha : ∀ c ∈ s.takeWhile (fun c => decide (c ∈ D)), c ≠ NUL ∧ c ∈ D := by
    intro c hc
    refine ⟨hs c (List.takeWhile_subset _ hc), ?_⟩
    simpa using List.mem_takeWhile_imp hc
  generalize s.takeWhile (fun c => decide (c ∈ D)) = a at hsplit ha
  cases hd : s.dropWhile (fun c => decide (c ∈ D)) with
  | nil => rw [hd] at h; simp at h
  | cons c cs =>
    rw [hd] at h hsplit
    have hc : decide (c ∈ D) = false := dropWhile_head_not _ s c cs hd
    simp only [Option.some.injEq, Prod.mk.injEq] at h
    obtain ⟨ht, hr⟩ := h
    have hsplit2 := List.takeWhile_append_dropWhile (fun x => decide (x ∉ D)) (c :: cs)
    rw [ht] at hsplit2
    have htne : t ≠ [] := by
      rw [← ht, List.takeWhile_cons_of_pos (by simpa using hc)]
      simp
    have htall : ∀ x ∈ t, x ≠ NUL ∧ x ∉ D := by
      intro x hx
      rw [← ht] at hx
      refine ⟨hs x ?_, by simpa using List.mem_takeWhile_imp hx⟩
      rw [← hsplit]
      exact List.mem_append_right _ (List.takeWhile_subset _ hx)
    cases hd2 : (c :: cs).dropWhile (fun x => decide (x ∉ D)) with
    | nil =>
      rw [hd2] at hr hsplit2
      simp only [List.drop_nil] at hr
      simp only [List.append_nil] at hsplit2
      subst hr
      refine ⟨a, pre ++ a ++ t, ?_, by simp, fun x hx => (htall x hx).1, Or.inr ⟨rfl, rfl⟩⟩
      have hmem : pre ++ s ++ NUL :: post = pre ++ a ++ t ++ NUL :: post := by
        rw [← hsplit, ← hsplit2]; simp
      rw [hmem, strtok_r_last pre a t post D st save hst ha htall htne]
      simp [Nat.add_assoc]
    | cons d s3 =>
      rw [hd2] at hr hsplit2
      simp only [List.drop_succ_cons, List.drop_zero] at hr
      subst hr
      have hdD : d ∈ D := by
        have := dropWhile_head_not _ (c :: cs) d s3 hd2
        simpa using this
      have hds : d ∈ s := by
        rw [← hsplit, ← hsplit2]; simp
      refine ⟨a, pre ++ a ++ t ++ [NUL], ?_, ?_, fun x hx => (htall x hx).1, Or.inl rfl⟩
      · have hmem : pre ++ s ++ NUL :: post = pre ++ a ++ t ++ d :: (s3 ++ NUL :: post) := by
          rw [← hsplit, ← hsplit2]; simp
        rw [hmem, strtok_r_cut pre a t (s3 ++ NUL :: post) D d st save hst ha htall htne
          ⟨hs d hds, hdD⟩]
        simp [Nat.add_assoc]
      · intro x hx
        apply hs
        rw [← hsplit, ← hsplit2]
        simp [hx]

/-- A version that runs up to the terminator: the request is accepted, with no header
slot filled.  The version is delimited by CR only and may contain spaces. -/
theorem analyze_request_line_end (C T V post : List Char)
    (hC : ∀ c ∈ C, c ≠ NUL ∧ c ∉ [' ']) (hCne : C ≠ [])
    (hT : ∀ c ∈ T, c ≠ NUL ∧ c ∉ [' ']) (hTne : T ≠ [])
    (hV : ∀ c ∈ V, c ≠ NUL ∧ c ∉ ['\r']) (hVne : V ≠ []) :
    analyze_request true (C ++ ' ' :: (T ++ ' ' :: (V ++ NUL :: post)))
      = some (C ++ NUL :: (T ++ NUL :: (V ++ NUL :: post)),
          some ⟨0, C.length + 1, C.length + T.length + 2, [], -1⟩) := by
  have e1 : strtok_r (C ++ ' ' :: (T ++ ' ' :: (V ++ NUL :: post))) (some 0) [' '] 0
      = ⟨C ++ NUL :: (T ++ ' ' :: (V ++ NUL :: post)), some 0, C.length + 1⟩ :=
    strtok_r_cut_eq _ _ [] [] C (T ++ ' ' :: (V ++ NUL :: post)) [' '] ' ' _ _ _ _
      (by simp) (by simp) rfl (by simp) (by simp) (by simp) hC hCne ⟨space_ne_NUL, by simp⟩
  have e2 : strtok_r (C ++ NUL :: (T ++ ' ' :: (V ++ NUL :: post))) none [' '] (C.length + 1)
      = ⟨C ++ NUL :: (T ++ NUL :: (V ++ NUL :: post)), some (C.length + 1),
          C.length + T.length + 2⟩ :=
    strtok_r_cut_eq _ _ (C ++ [NUL]) [] T (V ++ NUL :: post) [' '] ' ' _ _ _ _
      (by simp) (by simp) (by simp) (by simp) (by simp; omega) (by simp) hT hTne
      ⟨space_ne_NUL, by simp⟩
  have e3 : strtok_r (C ++ NUL :: (T ++ NUL :: (V ++ NUL :: post))) none ['\r']
        (C.length + T.length + 2)
      = ⟨C ++ NUL :: (T ++ NUL :: (V ++ NUL :: post)), some (C.length + T.length + 2),
          C.length + T.length + V.length + 2⟩ :=
    strtok_r_last_eq _ (C ++ NUL :: (T ++ [NUL])) [] V post ['\r'] _ _ _ _
      (by simp) (by simp; omega) (by simp; omega) (by simp; omega) (by simp) hV hVne
  have e4 : strtok_r (C ++ NUL :: (T ++ NUL :: (V ++ NUL :: post))) none ['\r']
        (C.length + T.length + V.length + 2)
      = ⟨C ++ NUL :: (T ++ NUL :: (V ++ NUL :: post)), none,
          C.length + T.length + V.length + 2⟩ :=
    strtok_r_none_eq _ (C ++ NUL :: (T ++ NUL :: V)) [] post ['\r'] _ _ _
      (by simp) (by simp; omega) (by simp; omega) (by simp)
  have e5 : analyze_loop ((C ++ NUL :: (T ++ NUL :: (V ++ NUL :: post))).length + 2)
      (C ++ NUL :: (T ++ NUL :: (V ++ NUL :: post))) none (C.length + T.length + V.length + 2) 0 []
      = some (C ++ NUL :: (T ++ NUL :: (V ++ NUL :: post)), 0, []) := rfl
  simp only [analyze_request, Bool.not_true, Bool.false_eq_true, if_false, e1, e2, e3]
  rw [e4]
  simp only [e5]
  rfl

/-- The calls of `analyze_request`, given what each `strtok_r` call returned. -/
theorem analyze_request_calls (buf : Mem) (c s h first : Tok)
    (h1 : strtok_r buf (some 0) [' '] 0 = c) (h2 : strtok_r c.mem none [' '] c.save = s)
    (h3 : strtok_r s.mem none ['\r'] s.save = h) (h4 : strtok_r h.mem none ['\r'] h.save = first) :
    analyze_request true buf
      = match c.tok with
        | none => some (c.mem, none)
        | some command =>
          match s.tok with
          | none => some (s.mem, none)
          | some site =>
            match h.tok with
            | none => some (h.mem, none)
            | some httpv =>
              match analyze_loop (first.mem.length + 2) first.mem first.tok first.save 0 [] with
              | none => none
              | some (mem, count, infos) =>
                some (mem, some ⟨command, site, httpv, infos, (count : Int) - 1⟩) := by
  unfold analyze_request
  simp only [Bool.not_true, Bool.false_eq_true, if_false, h1, h2, h3, h4]

/-- The fuel given to the loop is enough: `analyze_request` returns on every buffer. -/
theorem analyze_request_returns (req_alloc : Bool) (buf : Mem) :
    ∃ r, analyze_request req_alloc buf = some r := by
  cases req_alloc with
  | false => exact ⟨_, rfl⟩
  | true =>
    rw [analyze_request_calls buf _ _ _ _ rfl rfl rfl rfl]
    have h1l := strtok_r_length buf (some 0) [' '] 0
    have h1s := strtok_r_save_le buf (some 0) [' '] 0 (by simp)
    generalize strtok_r buf (some 0) [' '] 0 = c at h1l h1s ⊢
    have h2l := strtok_r_length c.mem none [' '] c.save
    have h2s := strtok_r_save_le c.mem none [' '] c.save (by simpa using (by omega))
    generalize strtok_r c.mem none [' '] c.save = s at h2l h2s ⊢
    have h3l := strtok_r_length s.mem none ['\r'] s.save
    have h3s := strtok_r_save_le s.mem none ['\r'] s.save (by simpa using (by omega))
    generalize strtok_r s.mem none ['\r'] s.save = h at h3l h3s ⊢
    have h4l := strtok_r_length h.mem none ['\r'] h.save
    have h4s := strtok_r_save_le h.mem none ['\r'] h.save (by simpa using (by omega))
    generalize strtok_r h.mem none ['\r'] h.save = first at h4l h4s ⊢
    obtain ⟨r, hr⟩ := analyze_loop_returns (first.mem.length + 2) first.mem first.tok
      first.save 0 [] (by omega) (fun _ => ⟨by omega, by omega⟩)
    rw [hr]
    cases c.tok with
    | none => exact ⟨_, rfl⟩
    | some command =>
      cases s.tok with
      | none => exact ⟨_, rfl⟩
      | some site =>
        cases h.tok with
        | none => exact ⟨_, rfl⟩
        | some httpv => exact ⟨_, rfl⟩

theorem next_token_nil (D : List Char) : next_token D [] = none := rfl

/-- The converse of the failure theorem: when the specification finds the three tokens
of the request line, `analyze_request` returns a request that holds exactly them. -/
theorem analyze_request_parses (s post c t v : List Char) (hs : ∀ x ∈ s, x ≠ NUL)
    (h : request_tokens s = some (c, t, v)) :
    ∃ m req, analyze_request true (s ++ NUL :: post) = some (m, some req)
      ∧ cstr m req.command = c ∧ cstr m req.site = t ∧ cstr m req.httpv = v := by
  unfold request_tokens at h
  cases h1 : next_token [' '] s with
  | none => rw [h1] at h; simp at h
  | some p1 =>
    obtain ⟨c1, r1⟩ := p1
    rw [h1] at h
    simp only at h
    cases h2 : next_token [' '] r1 with
    | none => rw [h2] at h; simp at h
    | some p2 =>
      obtain ⟨t1, r2⟩ := p2
      rw [h2] at h
      simp only at h
      cases h3 : next_token ['\r'] r2 with
      | none => rw [h3] at h; simp at h
      | some p3 =>
        obtain ⟨v1, r3⟩ := p3
        rw [h3] at h
        simp only [Option.some.injEq, Prod.mk.injEq] at h
        obtain ⟨rfl, rfl, rfl⟩ := h
        obtain ⟨a1, pre1, e1, hr1, hc, hp1⟩ :=
          strtok_r_next_token_some [] s post [' '] c1 r1 (some 0) 0 rfl hs h1
        simp only [List.nil_append] at e1 hp1
        obtain ⟨a2, pre2, e2, hr2, ht, hp2⟩ :=
          strtok_r_next_token_some pre1 r1 post [' '] t1 r2 none pre1.length rfl hr1 h2
        obtain ⟨a3, pre3, e3, hr3, hv, hp3⟩ :=
          strtok_r_next_token_some pre2 r2 post ['\r'] v1 r3 none pre2.length rfl hr2 h3
        have hp1' : pre1 = a1 ++ c1 ++ [NUL] := by
          rcases hp1 with hp1 | ⟨_, hr⟩
          · exact hp1
          · rw [hr, next_token_nil] at h2; cases h2
        have hp2' : pre2 = pre1 ++ a2 ++ t1 ++ [NUL] := by
          rcases hp2 with hp2 | ⟨_, hr⟩
          · exact hp2
          · rw [hr, next_token_nil] at h3; cases h3
        generalize h4 : strtok_r (pre3 ++ r3 ++ NUL :: post) none ['\r'] pre3.length = first
        rw [analyze_request_calls (s ++ NUL :: post) _ _ _ first e1 e2 e3 h4]
        simp only
        obtain ⟨⟨m, count, infos⟩, hrun⟩ := analyze_loop_returns (first.mem.length + 2)
          first.mem first.tok first.save 0 []
          (by omega) (fun _ => by
            have h4l := strtok_r_length (pre3 ++ r3 ++ NUL :: post) none ['\r'] pre3.length
            have h4s := strtok_r_save_le (pre3 ++ r3 ++ NUL :: post) none ['\r'] pre3.length
              (by simp)
            rw [h4] at h4l h4s
            exact ⟨by omega, by omega⟩)
        rw [hrun]
        refine ⟨m, _, rfl, ?_⟩
        simp only
        -- nothing below the start of the fourth call is written again
        have hf_take := strtok_r_take (pre3 ++ r3 ++ NUL :: post) none ['\r'] pre3.length
          pre3.length (by simp)
        have hf_ge := strtok_r_save_ge (pre3 ++ r3 ++ NUL :: post) none ['\r'] pre3.length
        have hf_tok := strtok_r_tok (pre3 ++ r3 ++ NUL :: post) none ['\r'] pre3.length
        rw [h4] at hf_take hf_ge hf_tok
        simp only [Option.getD_none] at hf_ge hf_tok
        have htake : m.take pre3.length = pre3 := by
          have := analyze_loop_take _ _ _ _ _ _ pre3.length _
            (fun q hq => (hf_tok q hq).1) hf_ge hrun
          simp only at this
          rw [this, hf_take, List.append_assoc, List.take_left]
        rcases hp3 with hp3 | ⟨hp3, hr⟩
        · -- the version is followed by a CR
          rw [hp3, hp2', hp1'] at htake
          refine ⟨?_, ?_, ?_⟩
          · have := cstr_of_take m a1 c1 (a2 ++ t1 ++ [NUL] ++ a3 ++ v1 ++ [NUL]) _
              (by rw [htake]; simp) hc
            simpa using this
          · have := cstr_of_take m (a1 ++ c1 ++ [NUL] ++ a2) t1 (a3 ++ v1 ++ [NUL]) _
              (by rw [htake]; simp) ht
            simpa [hp1'] using this
          · have := cstr_of_take m (a1 ++ c1 ++ [NUL] ++ a2 ++ t1 ++ [NUL] ++ a3) v1 [] _
              (by rw [htake]) hv
            simpa [hp2', hp1'] using this
        · -- the version runs up to the terminator: the loop has nothing to do
          subst hr
          have e4 : strtok_r (pre3 ++ [] ++ NUL :: post) none ['\r'] pre3.length
              = ⟨pre3 ++ [] ++ NUL :: post, none, pre3.length⟩ := by
            have := strtok_r_none pre3 [] post ['\r'] none pre3.length rfl (by simp)
            simpa using this
          rw [e4] at h4
          subst h4
          simp only [analyze_loop, Option.some.injEq, Prod.mk.injEq] at hrun
          obtain ⟨rfl, _, _⟩ := hrun
          refine ⟨?_, ?_, ?_⟩
          · have := cstr_append_cons a1 c1
              (a2 ++ t1 ++ [NUL] ++ a3 ++ v1 ++ NUL :: post) hc
            simpa [hp3, hp2', hp1'] using this
          · have := cstr_append_cons (a1 ++ c1 ++ [NUL] ++ a2) t1
              (a3 ++ v1 ++ NUL :: post) ht
            simpa [hp3, hp2', hp1'] using this
          · have := cstr_append_cons (a1 ++ c1 ++ [NUL] ++ a2 ++ t1 ++ [NUL] ++ a3) v1 post hv
            simpa [hp3, hp2', hp1'] using this

/-! ## The buffer `read_from` leaves holds a terminated string -/

theorem NUL_mem_set (l : Mem) (i : Nat) (h : i < l.length) : NUL ∈ l.set i NUL := by
  rw [List.mem_iff_getElem]
  exact ⟨i, by simpa using h, by simp⟩

theorem cstr_split : ∀ l : Mem, NUL ∈ l →
    ∃ post, l = cstr l 0 ++ NUL :: post ∧ ∀ x ∈ cstr l 0, x ≠ NUL := by
  intro l
  induction l with
  | nil => intro h; simp at h
  | cons c l ih =>
    intro h
    by_cases hc : c = NUL
    · subst hc
      exact ⟨l, by simp [cstr], by simp [cstr]⟩
    · have hl : NUL ∈ l := by
        rcases List.mem_cons.mp h with h | h
        · exact absurd h.symm hc
        · exact h
      obtain ⟨post, hp, hx⟩ := ih hl
      have e : cstr (c :: l) 0 = c :: cstr l 0 := by simp [cstr, hc]
      refine ⟨post, by rw [e, List.cons_append, ← hp], ?_⟩
      intro x hx'
      rw [e] at hx'
      rcases List.mem_cons.mp hx' with rfl | hx'
      · exact hc
      · exact hx x hx'

theorem read_finish_terminated (len : Int) (buf : Mem) (ptr : Nat) (slen readlen : Int)
    (calls : List RecvCall) (hb : ptr + readlen.toNat ≤ buf.length)
    (hret : 0 ≤ (read_finish len buf ptr slen readlen calls).ret) :
    NUL ∈ (read_finish len buf ptr slen readlen calls).buf
      ∨ (read_finish len buf ptr slen readlen calls).buf = [] := by
  unfold read_finish at hret ⊢
  by_cases h1 : readlen < 0
  · rw [if_pos h1] at hret; simp only at hret; omega
  · rw [if_neg h1]
    by_cases h2 : readlen = 0
    · rw [if_pos h2]
      cases buf with
      | nil => right; rfl
      | cons c cs => left; exact NUL_mem_set _ 0 (by simp)
    · rw [if_neg h2]
      left
      exact NUL_mem_set _ _ (by omega)

theorem length_recv_store (buf : Mem) (ptr : Nat) (r : Recv) (h : ptr ≤ buf.length) :
    ptr + r.readlen.toNat ≤ (recv_store buf ptr r).length := by
  cases r with
  | bytes d => simp [recv_store, Recv.readlen, List.length_take, Nat.min_eq_left h]
  | fail e => simpa [recv_store, Recv.readlen] using h

theorem read_loop_terminated (len : Int) : ∀ (script : List Recv) (buf : Mem) (ptr : Nat)
    (slen : Int) (cur : Recv) (calls : List RecvCall),
    ptr + cur.readlen.toNat ≤ buf.length →
    0 ≤ (read_loop len script buf ptr slen cur calls).ret →
    NUL ∈ (read_loop len script buf ptr slen cur calls).buf
      ∨ (read_loop len script buf ptr slen cur calls).buf = [] := by
  intro script
  induction script with
  | nil =>
    intro buf ptr slen cur calls hb hret
    by_cases h : 0 < cur.readlen ∧ charAt buf (ptr + cur.readlen.toNat - 1) ≠ '\n'
    · rw [read_loop_eof _ _ _ _ _ _ h] at hret ⊢
      exact read_finish_terminated _ _ _ _ _ _ (by simpa using hb) hret
    · rw [read_loop_stop _ _ _ _ _ _ _ h] at hret ⊢
      exact read_finish_terminated _ _ _ _ _ _ hb hret
  | cons r rest ih =>
    intro buf ptr slen cur calls hb hret
    by_cases h : 0 < cur.readlen ∧ charAt buf (ptr + cur.readlen.toNat - 1) ≠ '\n'
    · rw [read_loop_step _ _ _ _ _ _ _ _ h] at hret ⊢
      exact ih _ _ _ _ _ (length_recv_store _ _ _ hb) hret
    · rw [read_loop_stop _ _ _ _ _ _ _ h] at hret ⊢
      exact read_finish_terminated _ _ _ _ _ _ hb hret

/-- When `read_from` does not fail, the buffer holds a terminated string (the empty
buffer apart, which holds the empty string). -/
theorem read_from_terminated (script : List Recv) (buf : Mem) (len : Int)
    (hret : 0 ≤ (read_from script buf len).ret) :
    NUL ∈ (read_from script buf len).buf ∨ (read_from script buf len).buf = [] := by
  cases script with
  | nil => exact read_finish_terminated _ _ _ _ _ _ (by simp) hret
  | cons r rest =>
    exact read_loop_terminated len rest _ 0 len r _
      (by simpa using length_recv_store buf 0 r (Nat.zero_le _)) hret

/-- When the request is read and the text left in the buffer carries a command, a
target and a version, `analyze_request` returns a request. -/
theorem analyze_request_after_read (script : List Recv) (buf : Mem) (len : Int)
    (c t v : List Char) (hread : 0 ≤ (read_from script buf len).ret)
    (htok : request_tokens (cstr (read_from script buf len).buf 0) = some (c, t, v)) :
    ∃ m req, analyze_request true (read_from script buf len).buf = some (m, some req)
      ∧ cstr m req.command = c ∧ cstr m req.site = t ∧ cstr m req.httpv = v := by
  rcases read_from_terminated script buf len hread with hn | he
  · obtain ⟨post, hsplit, hs⟩ := cstr_split _ hn
    have := analyze_request_parses _ post c t v hs htok
    rw [← hsplit] at this
    exact this
  · rw [he] at htok
    cases htok

/-- The buffer and the string left by `read_from` for a request received whole. -/
theorem read_from_string (request : List Char) (buf : Mem) (len : Int)
    (hne : request ≠ []) (hlf : request.getLast? = some '\n')
    (hs : ∀ x ∈ request.dropLast, x ≠ NUL) :
    cstr (read_from [Recv.bytes request] buf len).buf 0 = request.dropLast := by
  have := (read_from_deliver [request] request buf len (Delivers_single request hne) hlf).1
  simp only [List.map_cons, List.map_nil] at this
  rw [this]
  exact cstr_append_cons [] request.dropLast _ hs

/-! ## The array `infos` after the call -/

theorem foldl_store_skip (i : Nat) : ∀ (log : List (Nat × information))
    (cur : Option information), (∀ e ∈ log, e.1 ≠ i) →
    log.foldl (fun cur e => if e.1 = i then some e.2 else cur) cur = cur := by
  intro log
  induction log with
  | nil => intro cur _; rfl
  | cons e log ih =>
    intro cur h
    rw [List.foldl_cons, if_neg (h e (List.mem_cons_self _ _))]
    exact ih cur (fun x hx => h x (List.mem_cons_of_mem _ hx))

/-- When the stores are those of `stored_headers`, slot `count + j` ends up holding the
`j`-th header: every slot is written once. -/
theorem foldl_store_stored (m : Mem) (blank : Bool) : ∀ (hs : List (List Char × List Char))
    (log : List (Nat × information)) (count j : Nat) (cur : Option information)
    (hj : j < hs.length),
    log.map (header_strings m) = stored_headers hs count blank →
    (log.foldl (fun cur e => if e.1 = count + j then some e.2 else cur) cur).map
        (fun e => (e.key.map (cstr m), e.value.map (cstr m)))
      = some (some hs[j].1, some hs[j].2) := by
  intro hs
  induction hs with
  | nil => intro log count j cur hj; simp at hj
  | cons h hs ih =>
    intro log count j cur hj hlog
    cases log with
    | nil => simp [stored_headers] at hlog
    | cons e log =>
      simp only [List.map_cons, stored_headers, List.cons.injEq] at hlog
      obtain ⟨he, hrest⟩ := hlog
      rw [List.foldl_cons]
      cases j with
      | zero =>
        have he1 : e.1 = count := congrArg Prod.fst he
        have he2 : (e.2.key.map (cstr m), e.2.value.map (cstr m)) = (some h.1, some h.2) :=
          congrArg Prod.snd he
        rw [Nat.add_zero, if_pos he1, foldl_store_skip count log _ (by
          intro x hx
          obtain ⟨y, hy, hyx⟩ := slot_of_header_strings m log _ hrest x hx
          have := stored_headers_slots blank hs (count + 1) y hy
          omega)]
        simpa using he2
      | succ j =>
        have hidx : count + (j + 1) = count + 1 + j := by omega
        rw [hidx]
        simpa using ih log (count + 1) j (if e.1 = count + 1 + j then some e.2 else cur)
          (by simpa using hj) hrest

/-- After the stores of `stored_headers`, `infos[i]` holds the `i`-th header. -/
theorem header_at_stored (m : Mem) (req : http_request) (hs : List (List Char × List Char))
    (blank : Bool) (h : req.infos.map (header_strings m) = stored_headers hs 0 blank)
    (i : Nat) (hi : i < hs.length) :
    header_at m req i = some (some hs[i].1, some hs[i].2) := by
  have := foldl_store_stored m blank hs req.infos 0 i none hi h
  rw [Nat.zero_add] at this
  exact this

/-! ## Reading stops at the first piece that ends with a line feed -/

/-- A piece that ends with a line feed ends the loop of `read_from`: what `recv` would
return afterwards is never asked for. -/
theorem read_from_stops (p : List Char) (rest : List Recv) (buf : Mem) (len : Int)
    (hlf : p.getLast? = some '\n') :
    read_from (Recv.bytes p :: rest) buf len = read_from [Recv.bytes p] buf len := by
  obtain ⟨p1, rfl⟩ : ∃ p1, p = p1 ++ ['\n'] := by
    rcases List.eq_nil_or_concat' p with h | ⟨p1, x, h⟩
    · rw [h] at hlf; simp at hlf
    · rw [h, List.getLast?_concat] at hlf
      exact ⟨p1, by rw [h, Option.some.inj hlf]⟩
  have hbuf : recv_store buf 0 (Recv.bytes (p1 ++ ['\n']))
      = p1 ++ '\n' :: buf.drop (p1.length + 1) := by
    simp [recv_store]
  have hch : charAt (recv_store buf 0 (Recv.bytes (p1 ++ ['\n'])))
      (0 + ((Recv.bytes (p1 ++ ['\n'])).readlen).toNat - 1) = '\n' := by
    rw [hbuf]
    have : 0 + ((Recv.bytes (p1 ++ ['\n'])).readlen).toNat - 1 = p1.length := by
      simp [readlen_bytes]
    rw [this]
    exact charAt_append_cons _ _ _
  simp only [read_from]
  rw [read_loop_stop _ _ _ _ _ _ _ (fun h => h.2 hch),
    read_loop_stop _ _ _ _ _ _ _ (fun h => h.2 hch)]

/-- A piece that fills the `len` bytes asked for without ending with a line feed: the
next `recv` is asked for 0 bytes and returns 0, and `read_from` leaves the empty
string. -/
theorem read_from_full (p : List Char) (buf : Mem) (len : Int)
    (hne : p ≠ []) (hlf : p.getLast? ≠ some '\n') :
    read_from [Recv.bytes p, Recv.bytes []] buf len
      = ⟨len - (len - p.length), (p ++ buf.drop p.length).set 0 NUL,
          [⟨0, len, p.length⟩, ⟨p.length, len - p.length, 0⟩], some 0⟩ := by
  obtain ⟨p1, x, rfl⟩ : ∃ p1 x, p = p1 ++ [x] := by
    rcases List.eq_nil_or_concat' p with h | ⟨p1, x, h⟩
    · exact absurd h hne
    · exact ⟨p1, x, h⟩
  have hx : x ≠ '\n' := by simpa using hlf
  have hbuf : recv_store buf 0 (Recv.bytes (p1 ++ [x]))
      = p1 ++ x :: buf.drop (p1.length + 1) := by
    simp [recv_store]
  have hch : charAt (recv_store buf 0 (Recv.bytes (p1 ++ [x])))
      (0 + ((Recv.bytes (p1 ++ [x])).readlen).toNat - 1) = x := by
    rw [hbuf]
    have : 0 + ((Recv.bytes (p1 ++ [x])).readlen).toNat - 1 = p1.length := by
      simp [readlen_bytes]
    rw [this]
    exact charAt_append_cons _ _ _
  have hpos : 0 < (Recv.bytes (p1 ++ [x])).readlen := by simp [readlen_bytes]
  have hnil : ∀ (s : Mem) (n : Nat), recv_store s n (Recv.bytes []) = s := by
    intro s n
    simp [recv_store]
  simp only [read_from]
  rw [read_loop_step _ _ _ _ _ _ _ _ ⟨hpos, by rw [hch]; exact hx⟩,
    read_loop_stop _ _ _ _ _ _ _ (by simp [readlen_bytes]), hnil, hbuf]
  simp [read_finish, readlen_bytes]

/-! ## Requests that get no reply -/

/-- The empty string holds no command: `NULL`. -/
theorem analyze_request_empty (post : Mem) :
    analyze_request true (NUL :: post) = some (NUL :: post, none) := by
  have e1 : strtok_r (NUL :: post) (some 0) [' '] 0 = ⟨NUL :: post, none, 0⟩ :=
    strtok_r_none_eq _ [] [] post [' '] _ _ _ (by simp) rfl (by simp) (by simp)
  simp only [analyze_request, Bool.not_true, Bool.false_eq_true, if_false, e1]

/-- The run of `process_connection` when the request is read and `analyze_request`
returns `NULL`. -/
theorem process_connection_no_request (buf : Mem) (script : List Recv) (sendres : Nat → Int)
    (m : Mem) (hread : 0 ≤ (read_from script buf 10239).ret)
    (hparse : analyze_request true (read_from script buf 10239).buf = some (m, none)) :
    process_connection (some buf) script true sendres
      = some [.error "Unable to analyze the request", .close] := by
  have h : ¬ (read_from script buf 10239).ret < 0 := by omega
  simp only [process_connection, h, if_false, hparse]

/-! ## The number of header slots filled, whatever follows the request line -/

theorem span_not (D : List Char) : ∀ s : List Char,
    ∃ t rem, s = t ++ rem ∧ (∀ c ∈ t, c ∉ D) ∧ (rem = [] ∨ ∃ d r, rem = d :: r ∧ d ∈ D) := by
  intro s
  induction s with
  | nil => exact ⟨[], [], rfl, by simp, Or.inl rfl⟩
  | cons c s ih =>
    by_cases hc : c ∈ D
    · exact ⟨[], c :: s, rfl, by simp, Or.inr ⟨c, s, rfl, hc⟩⟩
    · obtain ⟨t, rem, hs, ht, hrem⟩ := ih
      refine ⟨c :: t, rem, by rw [hs]; rfl, ?_, hrem⟩
      intro x hx
      rcases List.mem_cons.mp hx with rfl | hx
      · exact hc
      · exact ht x hx

/-- How a string splits for a tokenizer with delimiters `D`: only delimiters, or
delimiters `a`, a token `t`, and then either nothing or a delimiter `d` and a rest. -/
theorem token_split (D : List Char) : ∀ s : List Char,
    (∀ c ∈ s, c ∈ D)
    ∨ ∃ a t, t ≠ [] ∧ (∀ c ∈ a, c ∈ D) ∧ (∀ c ∈ t, c ∉ D)
        ∧ (s = a ++ t ∨ ∃ d r, d ∈ D ∧ s = a ++ t ++ d :: r) := by
  intro s
  induction s with
  | nil => left; simp
  | cons c s ih =>
    by_cases hc : c ∈ D
    · rcases ih with h | ⟨a, t, hne, ha, ht, hs⟩
      · left
        intro x hx
        rcases List.mem_cons.mp hx with rfl | hx
        · exact hc
        · exact h x hx
      · right
        refine ⟨c :: a, t, hne, ?_, ht, ?_⟩
        · intro x hx
          rcases List.mem_cons.mp hx with rfl | hx
          · exact hc
          · exact ha x hx
        · rcases hs with rfl | ⟨d, r, hd, rfl⟩
          · left; rfl
          · right; exact ⟨d, r, hd, rfl⟩
    · right
      obtain ⟨t, rem, hs, ht, hrem⟩ := span_not D s
      refine ⟨[], c :: t, by simp, by simp, ?_, ?_⟩
      · intro x hx
        rcases List.mem_cons.mp hx with rfl | hx
        · exact hc
        · exact ht x hx
      · rcases hrem with rfl | ⟨d, r, rfl, hd⟩
        · left; rw [hs]; simp
        · right; exact ⟨d, r, hd, by rw [hs]; simp⟩

/-- The three outcomes of a `strtok_r` call that scans the string `s`. -/
theorem strtok_r_cases (pre s post D : List Char) (st : Option Nat) (save : Nat)
    (hst : st.getD save = pre.length) (hs : ∀ c ∈ s, c ≠ NUL) :
    strtok_r (pre ++ s ++ NUL :: post) st D save
        = ⟨pre ++ s ++ NUL :: post, none, pre.length + s.length⟩
    ∨ (∃ a t, t ≠ [] ∧ s = a ++ t
        ∧ strtok_r (pre ++ s ++ NUL :: post) st D save
          = ⟨pre ++ s ++ NUL :: post, some (pre.length + a.length), pre.length + s.length⟩)
    ∨ ∃ a t d r, t ≠ [] ∧ d ∈ D ∧ s = a ++ t ++ d :: r
        ∧ strtok_r (pre ++ s ++ NUL :: post) st D save
          = ⟨pre ++ a ++ t ++ NUL :: (r ++ NUL :: post), some (pre.length + a.length),
              pre.length + a.length + t.length + 1⟩ := by
  rcases token_split D s with h | ⟨a, t, hne, ha, ht, hsplit⟩
  · left
    exact strtok_r_none pre s post D st save hst (fun c hc => ⟨hs c hc, h c hc⟩)
  · rcases hsplit with rfl | ⟨d, r, hd, rfl⟩
    · right; left
      refine ⟨a, t, hne, rfl, ?_⟩
      exact strtok_r_last_eq _ pre a t post D st save _ _ (by simp) hst rfl
        (by simp; omega) (fun c hc => ⟨hs c (by simp [hc]), ha c hc⟩)
        (fun c hc => ⟨hs c (by simp [hc]), ht c hc⟩) hne
    · right; right
      refine ⟨a, t, d, r, hne, hd, rfl, ?_⟩
      exact strtok_r_cut_eq _ _ pre a t (r ++ NUL :: post) D d st save _ _ (by simp) rfl
        hst rfl rfl (fun c hc => ⟨hs c (by simp [hc]), ha c hc⟩)
        (fun c hc => ⟨hs c (by simp [hc]), ht c hc⟩) hne ⟨hs d (by simp), hd⟩

/-- A `strtok_r` call that scans a string leaves what follows its terminator as it is,
and leaves `save` within the string or on its terminator. -/
theorem strtok_r_frame (pre s post D : List Char) (st : Option Nat) (save : Nat)
    (hst : st.getD save = pre.length) (hs : ∀ c ∈ s, c ≠ NUL) :
    ∃ pre1 s1, (strtok_r (pre ++ s ++ NUL :: post) st D save).mem = pre1 ++ s1 ++ NUL :: post
      ∧ (strtok_r (pre ++ s ++ NUL :: post) st D save).save = pre1.length
      ∧ (∀ c ∈ s1, c ≠ NUL) ∧ pre1.length + s1.length = pre.length + s.length := by
  rcases strtok_r_cases pre s post D st save hst hs with h | ⟨a, t, _, _, h⟩ | ⟨a, t, d, r, _, _, rfl, h⟩
  · rw [h]
    exact ⟨pre ++ s, [], by simp, by simp, by simp, by simp⟩
  · rw [h]
    exact ⟨pre ++ s, [], by simp, by simp, by simp, by simp⟩
  · rw [h]
    refine ⟨pre ++ a ++ t ++ [NUL], r, by simp, by simp [Nat.add_assoc],
      fun c hc => hs c (by simp [hc]), ?_⟩
    simp
    omega

/-- The two calls that cut a header line into key and value leave what follows the
terminator of the line as it is. -/
theorem header_calls_frame (pre t post : List Char) (ht : ∀ c ∈ t, c ≠ NUL) :
    ∃ y, (strtok_r (strtok_r (pre ++ t ++ NUL :: post) (some pre.length) [':', ' '] 0).mem none
          ['\r'] (strtok_r (pre ++ t ++ NUL :: post) (some pre.length) [':', ' '] 0).save).mem
        = y ++ NUL :: post
      ∧ y.length = pre.length + t.length := by
  obtain ⟨pre1, t1, hm1, hs1, ht1, hl1⟩ :=
    strtok_r_frame pre t post [':', ' '] (some pre.length) 0 rfl ht
  rw [hm1, hs1]
  obtain ⟨pre2, t2, hm2, _, _, hl2⟩ :=
    strtok_r_frame pre1 t1 post ['\r'] none pre1.length rfl ht1
  rw [hm2]
  exact ⟨pre2 ++ t2, by simp, by simp; omega⟩

/-- The loop of `analyze_request` fills at most one slot per carriage return of the text
it scans, and one more. -/
theorem analyze_lines_count : ∀ (fuel : Nat) (pre s post : Mem) (count : Nat)
    (infos : List (Nat × information)) (r : Mem × Nat × List (Nat × information)),
    (∀ x ∈ s, x ≠ NUL) →
    analyze_lines fuel (pre ++ s ++ NUL :: post) pre.length count infos = some r →
    r.2.1 ≤ count + (if s = [] then 0 else s.count '\r' + 1) := by
  intro fuel
  induction fuel with
  | zero => intro _ _ _ _ _ _ _ h; simp [analyze_lines, analyze_loop] at h
  | succ fuel ih =>
    intro pre s post count infos r hs h
    unfold analyze_lines at h
    rcases strtok_r_cases pre s post ['\r'] none pre.length rfl hs with
      e | ⟨a, t, hne, rfl, e⟩ | ⟨a, t, d, r1, hne, hd, rfl, e⟩
    · simp only [e, analyze_loop_none, Option.some.injEq] at h
      rw [← h]
      simp
    · simp only [e] at h
      rw [analyze_loop_succ] at h
      have hmem : pre ++ (a ++ t) ++ NUL :: post = (pre ++ a) ++ t ++ NUL :: post := by simp
      have hq : pre.length + a.length = (pre ++ a).length := by simp
      rw [hmem, hq] at h
      obtain ⟨y, hy, hyl⟩ := header_calls_frame (pre ++ a) t post
        (fun c hc => hs c (by simp [hc]))
      rw [hy] at h
      have hmem2 : y ++ NUL :: post = y ++ [] ++ NUL :: post := by simp
      have hp : pre.length + (a ++ t).length = y.length := by simp at hyl ⊢; omega
      rw [hmem2, hp] at h
      have := ih y [] post (count + 1) _ r (by simp) h
      have hne2 : a ++ t ≠ [] := by simp [hne]
      simp only [if_neg hne2]
      simp at this
      omega
    · simp only [e] at h
      rw [analyze_loop_succ] at h
      have hq : pre.length + a.length = (pre ++ a).length := by simp
      rw [hq] at h
      obtain ⟨y, hy, hyl⟩ := header_calls_frame (pre ++ a) t (r1 ++ NUL :: post)
        (fun c hc => hs c (by simp [hc]))
      rw [hy] at h
      have hmem2 : y ++ NUL :: (r1 ++ NUL :: post) = (y ++ [NUL]) ++ r1 ++ NUL :: post := by simp
      have hp : (pre ++ a).length + t.length + 1 = (y ++ [NUL]).length := by
        simp at hyl ⊢; omega
      rw [hmem2, hp] at h
      have := ih (y ++ [NUL]) r1 post (count + 1) _ r (fun c hc => hs c (by simp [hc])) h
      have hd1 : d = '\r' := by simpa using hd
      subst hd1
      have hne2 : a ++ t ++ '\r' :: r1 ≠ [] := by simp
      simp only [if_neg hne2]
      have hc : r1.count '\r' + 1 ≤ (a ++ t ++ '\r' :: r1).count '\r' := by
        simp [List.count_append]
        omega
      split at this <;> omega

/-- Every store of the loop goes to the slot `count` stands at, which then moves on: all
slots written are below the final `count`. -/
theorem analyze_loop_slots : ∀ (fuel : Nat) (mem : Mem) (line : Option Nat) (ptr count : Nat)
    (infos : List (Nat × information)) (r : Mem × Nat × List (Nat × information)),
    analyze_loop fuel mem line ptr count infos = some r →
    (∀ e ∈ infos, e.1 < count) → ∀ e ∈ r.2.2, e.1 < r.2.1 := by
  intro fuel
  induction fuel with
  | zero => intro _ _ _ _ _ _ h; simp [analyze_loop] at h
  | succ fuel ih =>
    intro mem line ptr count infos r h hinfos
    cases line with
    | none =>
      rw [analyze_loop_none] at h
      rw [← Option.some.inj h]
      exact hinfos
    | some l =>
      rw [analyze_loop_succ] at h
      unfold analyze_lines at h
      refine ih _ _ _ _ _ r h ?_
      intro e he
      rcases List.mem_append.mp he with he | he
      · have := hinfos e he; omega
      · simp at he; rw [he]; simp

/-- A request line followed by a text with at most 255 carriage returns: `analyze_request`
returns a request, and every store into `infos` is within its 256 slots. -/
theorem analyze_request_in_bounds (C T V s post : List Char)
    (hC : Token C) (hT : Token T) (hV : Token V) (hs : ∀ x ∈ s, x ≠ NUL)
    (hk : s.count '\r' ≤ 255) :
    ∃ m req, analyze_request true (C ++ ' ' :: (T ++ ' ' :: (V ++ '\r' :: (s ++ NUL :: post))))
        = some (m, some req)
      ∧ ∀ e ∈ req.infos, e.1 < 256 := by
  obtain ⟨r, hr⟩ := analyze_request_returns true
    (C ++ ' ' :: (T ++ ' ' :: (V ++ '\r' :: (s ++ NUL :: post))))
  rw [analyze_request_line C T V _ hC.no_space hC.1 hT.no_space hT.1 hV.no_cr hV.1] at hr ⊢
  obtain ⟨a, ha, _⟩ := Option.map_eq_some'.mp hr
  rw [ha]
  refine ⟨_, _, rfl, ?_⟩
  have hmem : C ++ NUL :: (T ++ NUL :: (V ++ NUL :: (s ++ NUL :: post)))
      = (C ++ NUL :: (T ++ NUL :: (V ++ [NUL]))) ++ s ++ NUL :: post := by simp
  rw [hmem] at ha
  have hcount := analyze_lines_count _ _ s post 0 [] a hs ha
  unfold analyze_lines at ha
  have hslots := analyze_loop_slots _ _ _ _ _ _ a ha (by simp)
  intro e he
  have := hslots e he
  split at hcount <;> omega

/-- The string at the start of `x ++ NUL :: y` is a part of `x`. -/
theorem cstr_sublist (y : List Char) : ∀ x : List Char,
    (cstr (x ++ NUL :: y) 0).Sublist x := by
  intro x
  induction x with
  | nil => simp [cstr]
  | cons c x ih =>
    by_cases hc : c = NUL
    · subst hc; simp [cstr]
    · have : cstr (c :: x ++ NUL :: y) 0 = c :: cstr (x ++ NUL :: y) 0 := by
        simp [cstr, hc]
      rw [this]
      exact List.Sublist.cons₂ c ih

/-- A request that starts with a request line, followed by at most 255 carriage returns,
and is received whole, is read and parsed, and every store into `infos` is within its
256 slots. -/
theorem read_then_analyze_line (C T V tail : List Char) (chunks : List (List Char)) (buf : Mem)
    (len : Int) (hC : Token C) (hT : Token T) (hV : Token V)
    (hlf : (request_line C T V ++ tail).getLast? = some '\n')
    (hk : tail.count '\r' ≤ 255)
    (hd : Delivers chunks (request_line C T V ++ tail)) :
    0 ≤ (read_from (chunks.map Recv.bytes) buf len).ret
      ∧ ∃ m req, analyze_request true (read_from (chunks.map Recv.bytes) buf len).buf
          = some (m, some req)
        ∧ ∀ e ∈ req.infos, e.1 < 256 := by
  have hr := read_from_deliver chunks _ buf len hd hlf
  refine ⟨by rw [hr.2]; omega, ?_⟩
  have e : request_line C T V ++ tail
      = (C ++ ' ' :: (T ++ ' ' :: (V ++ ['\r']))) ++ '\n' :: tail := by
    simp [request_line]
  obtain ⟨post, hsplit, hnul⟩ := cstr_split
    (('\n' :: tail).dropLast ++ NUL :: buf.drop (request_line C T V ++ tail).length) (by simp)
  have hsub := cstr_sublist (buf.drop (request_line C T V ++ tail).length) ('\n' :: tail).dropLast
  have hcount : (cstr (('\n' :: tail).dropLast
      ++ NUL :: buf.drop (request_line C T V ++ tail).length) 0).count '\r' ≤ 255 := by
    have h1 := hsub.count_le '\r'
    have h2 := (List.dropLast_sublist ('\n' :: tail)).count_le '\r'
    have h3 : ('\n' :: tail).count '\r' = tail.count '\r' := by
      rw [List.count_cons_of_ne (by decide)]
    omega
  obtain ⟨m, req, hrun, hslots⟩ := analyze_request_in_bounds C T V _ post hC hT hV hnul hcount
  rw [← hsplit] at hrun
  refine ⟨m, req, ?_, hslots⟩
  have hbuf : (request_line C T V ++ tail).dropLast
      = (C ++ ' ' :: (T ++ ' ' :: (V ++ ['\r']))) ++ ('\n' :: tail).dropLast := by
    rw [e, List.dropLast_append_cons]
  rw [hr.1, hbuf]
  simp only [List.append_assoc, List.cons_append, List.nil_append] at hrun ⊢
  exact hrun

/-! ## The request parser: request line, header count, header list, slot bound -/

/-- C3 (as amended).  For every well-formed request that ends with the blank line —
request line, `k ≤ 255` well-formed header lines, blank line, all tokens, keys and
values free of NUL — and for every way `recv` hands the request over in non-empty
pieces none of which but the last ends with a line feed (so that `read_from` reads the
whole request): after `read_from` and `analyze_request`, `info_length` equals `k`, and
every store into `infos` is within its 256 slots. -/
theorem info_length_counts_headers (C T V : List Char) (hs : List (List Char × List Char))
    (chunks : List (List Char)) (buf : Mem) (len : Int)
    (hC : Token C) (hT : Token T) (hV : Token V) (hall : ∀ h ∈ hs, Header h)
    (hk : hs.length ≤ 255) (hd : Delivers chunks (http_text C T V hs true)) :
    ∃ m req, analyze_request true (read_from (chunks.map Recv.bytes) buf len).buf
        = some (m, some req)
      ∧ req.info_length = (hs.length : Int) ∧ ∀ e ∈ req.infos, e.1 < 256 := by
  obtain ⟨_, m, req, hrun, _, _, _, hstr, hlen⟩ :=
    read_then_analyze C T V hs true chunks buf len hC hT hV hall hd
  refine ⟨m, req, hrun, by simpa using hlen, ?_⟩
  intro e he
  obtain ⟨x, hx, hxe⟩ := slot_of_header_strings m req.infos _ hstr e he
  have := stored_headers_slots true hs 0 x hx
  simp at this
  omega

/-- C3, witness: `GET / HTTP/1.1\r\nHost: x\r\n\r\n` has one header line and
`info_length` is 1. -/
theorem info_length_counts_headers_witness :
    Token "GET".toList ∧ Token "/".toList ∧ Token "HTTP/1.1".toList
      ∧ (∀ h ∈ [("Host".toList, "x".toList)], Header h)
      ∧ [("Host".toList, "x".toList)].length ≤ 255
      ∧ Delivers ["GET / HTTP/1.1\r\nHost: x\r\n\r\n".toList]
          (http_text "GET".toList "/".toList "HTTP/1.1".toList [("Host".toList, "x".toList)] true)
      ∧ ∃ m req, analyze_request true
          (read_from [Recv.bytes "GET / HTTP/1.1\r\nHost: x\r\n\r\n".toList]
            (List.replicate 10240 'z') 10239).buf = some (m, some req)
        ∧ req.info_length = 1 ∧ ∀ e ∈ req.infos, e.1 < 256 :=
  ⟨by decide, by decide, by decide, by decide, by decide, by decide,
    info_length_counts_headers "GET".toList "/".toList "HTTP/1.1".toList
      [("Host".toList, "x".toList)] ["GET / HTTP/1.1\r\nHost: x\r\n\r\n".toList]
      (List.replicate 10240 'z') 10239 (by decide) (by decide) (by decide) (by decide)
      (by decide) (by decide)⟩

/-- C3, counterexample to the claim as stated.  For the request that consists of the
request line `GET / HTTP/1.1\r\n` alone, `info_length` is -1, not 0.  And when the
request `GET / HTTP/1.1\r\nHost: x\r\n\r\n` (one header line, blank line) arrives in two
pieces cut after the request line, `read_from` stops at the first piece, which ends with
a line feed, and `info_length` is -1, not 1. -/
theorem info_length_request_line_alone :
    (∃ m req, analyze_request true
        (read_from [Recv.bytes "GET / HTTP/1.1\r\n".toList] (List.replicate 10240 'z') 10239).buf
        = some (m, some req)
      ∧ req.info_length = -1 ∧ req.info_length ≠ 0)
    ∧ ["GET / HTTP/1.1\r\n".toList, "Host: x\r\n\r\n".toList].flatten
        = http_text "GET".toList "/".toList "HTTP/1.1".toList [("Host".toList, "x".toList)] true
    ∧ ∃ m req, analyze_request true
        (read_from [Recv.bytes "GET / HTTP/1.1\r\n".toList, Recv.bytes "Host: x\r\n\r\n".toList]
          (List.replicate 10240 'z') 10239).buf = some (m, some req)
      ∧ req.info_length = -1 ∧ req.info_length ≠ 1 := by
  obtain ⟨_, m, req, hrun, _, _, _, _, hlen⟩ :=
    read_then_analyze "GET".toList "/".toList "HTTP/1.1".toList [] false
      ["GET / HTTP/1.1\r\n".toList] (List.replicate 10240 'z') 10239
      (by decide) (by decide) (by decide) (by decide) (by decide)
  simp only [List.map_cons, List.map_nil] at hrun
  have h1 : req.info_length = -1 := by simpa using hlen
  refine ⟨⟨m, req, hrun, h1, by rw [h1]; decide⟩, by decide, m, req, ?_, h1, by rw [h1]; decide⟩
  rw [read_from_stops _ _ _ _ (by decide)]
  exact hrun

/-- C4 (as amended).  For every well-formed request with `k ≤ 255` header lines
`K_i: V_i` (keys non-empty and free of colon, space, CR, LF and NUL; values free of CR,
LF and NUL; request-line tokens free of NUL as well) followed by the blank line, and for
every way `recv` hands the request over in non-empty pieces none of which but the last
ends with a line feed: after `read_from` and `analyze_request`, `infos[i]` holds `K_i`
as key and `V_i` as value for every `i < k`.  The stores made into the header list are
exactly those of the `k` headers, in order, to the slots `0 .. k-1`, then the one of the
blank line to slot `k` (empty key, null value); all are within the 256 slots. -/
theorem infos_hold_headers (C T V : List Char) (hs : List (List Char × List Char))
    (chunks : List (List Char)) (buf : Mem) (len : Int)
    (hC : Token C) (hT : Token T) (hV : Token V) (hall : ∀ h ∈ hs, Header h)
    (hk : hs.length ≤ 255) (hd : Delivers chunks (http_text C T V hs true)) :
    ∃ m req, analyze_request true (read_from (chunks.map Recv.bytes) buf len).buf
        = some (m, some req)
      ∧ (∀ i (hi : i < hs.length), header_at m req i = some (some hs[i].1, some hs[i].2))
      ∧ req.infos.map (header_strings m) = stored_headers hs 0 true
      ∧ ∀ e ∈ req.infos, e.1 < 256 := by
  obtain ⟨_, m, req, hrun, _, _, _, hstr, _⟩ :=
    read_then_analyze C T V hs true chunks buf len hC hT hV hall hd
  refine ⟨m, req, hrun, header_at_stored m req hs true hstr, hstr, ?_⟩
  intro e he
  obtain ⟨x, hx, hxe⟩ := slot_of_header_strings m req.infos _ hstr e he
  have := stored_headers_slots true hs 0 x hx
  simp at this
  omega

/-- C4, witness: a request with the two headers `Host: x` and `Date: Mon, 1 Jan: 00:00`,
whose value contains colons and spaces. -/
theorem infos_hold_headers_witness :
    Token "GET".toList ∧ Token "/".toList ∧ Token "HTTP/1.1".toList
      ∧ (∀ h ∈ [("Host".toList, "x".toList), ("Date".toList, "Mon, 1 Jan: 00:00".toList)],
          Header h)
      ∧ [("Host".toList, "x".toList), ("Date".toList, "Mon, 1 Jan: 00:00".toList)].length ≤ 255
      ∧ Delivers ["GET / HTTP/1.1\r\nHost: x\r\nDate: Mon, 1 Jan: 00:00\r\n\r\n".toList]
          (http_text "GET".toList "/".toList "HTTP/1.1".toList
            [("Host".toList, "x".toList), ("Date".toList, "Mon, 1 Jan: 00:00".toList)] true)
      ∧ ∃ m req, analyze_request true
          (read_from [Recv.bytes "GET / HTTP/1.1\r\nHost: x\r\nDate: Mon, 1 Jan: 00:00\r\n\r\n".toList]
            (List.replicate 10240 'z') 10239).buf = some (m, some req)
        ∧ (∀ i (hi : i < [("Host".toList, "x".toList),
              ("Date".toList, "Mon, 1 Jan: 00:00".toList)].length),
            header_at m req i
              = some (some [("Host".toList, "x".toList),
                  ("Date".toList, "Mon, 1 Jan: 00:00".toList)][i].1,
                some [("Host".toList, "x".toList),
                  ("Date".toList, "Mon, 1 Jan: 00:00".toList)][i].2))
        ∧ req.infos.map (header_strings m)
            = stored_headers [("Host".toList, "x".toList),
                ("Date".toList, "Mon, 1 Jan: 00:00".toList)] 0 true
        ∧ ∀ e ∈ req.infos, e.1 < 256 :=
  ⟨by decide, by decide, by decide, by decide, by decide, by decide,
    infos_hold_headers "GET".toList "/".toList "HTTP/1.1".toList
      [("Host".toList, "x".toList), ("Date".toList, "Mon, 1 Jan: 00:00".toList)]
      ["GET / HTTP/1.1\r\nHost: x\r\nDate: Mon, 1 Jan: 00:00\r\n\r\n".toList]
      (List.replicate 10240 'z') 10239 (by decide) (by decide) (by decide) (by decide)
      (by decide) (by decide)⟩

/-- C4, counterexample to the claim as stated.  The value `a\0b` is free of CR and LF,
yet after `GET / HTTP/1.1\r\nHost: a\0b\r\n\r\n` the header list holds the value `a`.
And when the request `GET / HTTP/1.1\r\nHost: x\r\n\r\n` arrives in two pieces cut
after the request line, `read_from` stops at the first piece and the header list holds
nothing: no store is made into it. -/
theorem infos_nul_in_value :
    (ClaimedToken "GET".toList ∧ ClaimedToken "/".toList ∧ ClaimedToken "HTTP/1.1".toList
      ∧ ClaimedHeader ("Host".toList, ['a', NUL, 'b'])
      ∧ returned_headers (analyze_request true
          (read_from [Recv.bytes (http_text "GET".toList "/".toList "HTTP/1.1".toList
              [("Host".toList, ['a', NUL, 'b'])] true)]
            (List.replicate 10240 'z') 10239).buf)
        = some (some [(0, some "Host".toList, some ['a'])]))
    ∧ ["GET / HTTP/1.1\r\n".toList, "Host: x\r\n\r\n".toList].flatten
        = http_text "GET".toList "/".toList "HTTP/1.1".toList [("Host".toList, "x".toList)] true
    ∧ returned_headers (analyze_request true
        (read_from [Recv.bytes "GET / HTTP/1.1\r\n".toList, Recv.bytes "Host: x\r\n\r\n".toList]
          (List.replicate 10240 'z') 10239).buf) = some (some []) := by
  refine ⟨⟨by decide, by decide, by decide, by decide, ?_⟩, by decide, ?_⟩
  · have hr := read_from_deliver
      [http_text "GET".toList "/".toList "HTTP/1.1".toList [("Host".toList, ['a', NUL, 'b'])] true] _
      (List.replicate 10240 'z') 10239 (Delivers_single _ (http_text_ne_nil _ _ _ _ _))
      (http_text_buffer _ _ _ _ _ []).2
    simp only [List.map_cons, List.map_nil] at hr
    rw [hr.1]
    have e : (http_text "GET".toList "/".toList "HTTP/1.1".toList
          [("Host".toList, ['a', NUL, 'b'])] true).dropLast
        = "GET".toList ++ ' ' :: ("/".toList ++ ' ' :: ("HTTP/1.1".toList ++ '\r' :: '\n' ::
            ("Host".toList ++ ':' :: ' ' :: (['a'] ++ NUL :: "b\r\n\r".toList)))) := by decide
    rw [e]
    have h := analyze_request_header_end "GET".toList "/".toList "HTTP/1.1".toList "Host".toList
      ['a'] ("b\r\n\r".toList ++ NUL :: List.drop
        (http_text "GET".toList "/".toList "HTTP/1.1".toList
          [("Host".toList, ['a', NUL, 'b'])] true).length
        (List.replicate 10240 'z')) (by decide) (by decide) (by decide) (by decide)
    simp only [List.append_assoc, List.cons_append, List.nil_append] at h ⊢
    exact h
  · obtain ⟨_, m, req, hrun, _, _, _, hstr, _⟩ :=
      read_then_analyze "GET".toList "/".toList "HTTP/1.1".toList [] false
        ["GET / HTTP/1.1\r\n".toList] (List.replicate 10240 'z') 10239
        (by decide) (by decide) (by decide) (by decide) (by decide)
    simp only [List.map_cons, List.map_nil] at hrun
    rw [read_from_stops _ _ _ _ (by decide), hrun]
    simp only [returned_headers, Option.map_some', hstr]
    rfl

/-- C7: the header list is not kept within its 256 slots.  For the request
`GET / HTTP/1.1\r\n`, 257 lines `A: b\r\n` and the blank line (1560 bytes, received in
one piece into the buffer of `process_connection`), `analyze_request` stores into slot
256 of `infos[256]`. -/
theorem infos_store_past_the_end :
    (http_text "GET".toList "/".toList "HTTP/1.1".toList
        (List.replicate 257 ("A".toList, "b".toList)) true).length = 1560
      ∧ ∃ m req, analyze_request true
          (read_from [Recv.bytes (http_text "GET".toList "/".toList "HTTP/1.1".toList
              (List.replicate 257 ("A".toList, "b".toList)) true)]
            (List.replicate 10240 'z') 10239).buf = some (m, some req)
        ∧ ∃ e ∈ req.infos, e.1 = 256 ∧ ¬ e.1 < 256 := by
  refine ⟨by rw [http_text, List.length_append, length_tail_text_replicate]; decide, ?_⟩
  obtain ⟨_, m, req, hrun, _, _, _, hstr, _⟩ :=
    read_then_analyze "GET".toList "/".toList "HTTP/1.1".toList
      (List.replicate 257 ("A".toList, "b".toList)) true
      [http_text "GET".toList "/".toList "HTTP/1.1".toList
        (List.replicate 257 ("A".toList, "b".toList)) true]
      (List.replicate 10240 'z') 10239 (by decide) (by decide) (by decide)
      (by intro h hh; rw [List.eq_of_mem_replicate hh]; decide)
      (Delivers_single _ (http_text_ne_nil _ _ _ _ _))
  refine ⟨m, req, hrun, ?_⟩
  have hget := stored_headers_getElem? true (List.replicate 257 ("A".toList, "b".toList)) 0 256
    (by rw [List.length_replicate]; omega)
  rw [← hstr, List.getElem?_map] at hget
  cases hq : req.infos[256]? with
  | none => rw [hq] at hget; cases hget
  | some e =>
    rw [hq] at hget
    have h1 : (header_strings m e).1 = 0 + 256 := congrArg Prod.fst (Option.some.inj hget)
    have h2 : e.1 = 256 := by simpa [header_strings] using h1
    exact ⟨e, List.getElem?_mem hq, h2, by omega⟩

/-! ## Parse failures -/

/-- C2 (as amended).  For every input buffer holding a NUL-terminated string in which
the command, the target or the version is missing — tokenizing as the parser does: the
first two tokens delimited by spaces, the third, taken from what follows the separator
of the second, delimited by CR — `analyze_request` fails: it returns `NULL`. -/
theorem analyze_request_fails (req_alloc : Bool) (s post : List Char) (hs : ∀ c ∈ s, c ≠ NUL)
    (h : request_tokens s = none) :
    returned (analyze_request req_alloc (s ++ NUL :: post)) = some none := by
  cases req_alloc with
  | false => rfl
  | true =>
    rw [analyze_request_calls (s ++ NUL :: post) _ _ _ _ rfl rfl rfl rfl]
    unfold request_tokens at h
    cases h1 : next_token [' '] s with
    | none =>
      have e1 := strtok_r_next_token_none [] s post [' '] (some 0) 0 rfl hs h1
      simp only [List.nil_append] at e1
      rw [e1]
      rfl
    | some p1 =>
      obtain ⟨c, r1⟩ := p1
      rw [h1] at h
      simp only at h
      obtain ⟨a1, pre1, e1, hr1, _, _⟩ :=
        strtok_r_next_token_some [] s post [' '] c r1 (some 0) 0 rfl hs h1
      simp only [List.nil_append] at e1
      rw [e1]
      cases h2 : next_token [' '] r1 with
      | none =>
        have e2 := strtok_r_next_token_none pre1 r1 post [' '] none pre1.length rfl hr1 h2
        rw [e2]
        rfl
      | some p2 =>
        obtain ⟨t, r2⟩ := p2
        rw [h2] at h
        simp only at h
        obtain ⟨a2, pre2, e2, hr2, _, _⟩ :=
          strtok_r_next_token_some pre1 r1 post [' '] t r2 none pre1.length rfl hr1 h2
        rw [e2]
        cases h3 : next_token ['\r'] r2 with
        | none =>
          have e3 := strtok_r_next_token_none pre2 r2 post ['\r'] none pre2.length rfl hr2 h3
          rw [e3]
          rfl
        | some p3 =>
          rw [h3] at h
          simp at h

/-- C2, witness: after `GET /\n` the buffer holds `GET /`, which has no version. -/
theorem analyze_request_fails_witness :
    (∀ c ∈ "GET /".toList, c ≠ NUL) ∧ request_tokens "GET /".toList = none
      ∧ returned (analyze_request true ("GET /".toList ++ NUL :: List.replicate 10234 'z'))
          = some none :=
  ⟨by decide, by decide,
    analyze_request_fails true "GET /".toList (List.replicate 10234 'z') (by decide) (by decide)⟩

/-- C2, counterexample to the claim as stated: after `a b  \n` the buffer holds the
string `a b` followed by two spaces, which splits on space and CR into two non-empty
tokens only, yet `analyze_request` returns a request (its version is a single space). -/
theorem analyze_request_accepts_two_tokens :
    (pieces [' ', '\r'] (cstr (read_from [Recv.bytes "a b  \n".toList]
        (List.replicate 10240 'z') 10239).buf 0)).length < 3
      ∧ ∃ m req, analyze_request true (read_from [Recv.bytes "a b  \n".toList]
          (List.replicate 10240 'z') 10239).buf = some (m, some req)
        ∧ cstr m req.httpv = [' '] := by
  have hr := (read_from_deliver ["a b  \n".toList] "a b  \n".toList (List.replicate 10240 'z')
    10239 (by decide) (by decide)).1
  simp only [List.map_cons, List.map_nil] at hr
  have e : "a b  \n".toList.dropLast = ['a'] ++ ' ' :: (['b'] ++ ' ' :: ([' '] ++ [])) := by
    decide
  rw [hr]
  constructor
  · have := cstr_append_cons [] "a b  \n".toList.dropLast
      (List.drop "a b  \n".toList.length (List.replicate 10240 'z')) (by decide)
    simp only [List.nil_append, List.length_nil] at this
    rw [this]
    decide
  · rw [e]
    have h := analyze_request_line_end ['a'] ['b'] [' ']
      (List.drop "a b  \n".toList.length (List.replicate 10240 'z'))
      (by decide) (by decide) (by decide) (by decide) (by decide) (by decide)
    simp only [List.append_assoc, List.cons_append, List.nil_append, List.append_nil] at h ⊢
    refine ⟨_, _, h, ?_⟩
    exact cstr_append_cons ['a', NUL, 'b', NUL] [' '] _ (by decide)

/-! ## The line reader -/

/-- C8.  For every sequence of `recv` results, every buffer and every `len`:
`read_from` returns a negative value if and only if the `recv` call that ended its loop
(the last one made) returned a negative value, and then it returns exactly that value;
and when that call returned 0 the result is non-negative and the buffer holds the empty
string, whatever earlier calls had stored. -/
theorem read_from_reports_errors (script : List Recv) (buf : Mem) (len : Int) :
    ∃ last, (read_from script buf len).calls.getLast? = some last
      ∧ ((read_from script buf len).ret < 0 ↔ last.readlen < 0)
      ∧ (last.readlen < 0 → (read_from script buf len).ret = last.readlen)
      ∧ (last.readlen = 0 →
          0 ≤ (read_from script buf len).ret ∧ cstr (read_from script buf len).buf 0 = []) := by
  have h : Reports (read_from script buf len) := by
    cases script with
    | nil =>
      exact read_finish_reports len buf 0 len 0 [⟨0, len, 0⟩] ⟨0, len, 0⟩ rfl rfl
        (Int.le_refl _)
    | cons r rest =>
      exact read_loop_reports len rest _ 0 len r [⟨0, len, r.readlen⟩] ⟨0, len, r.readlen⟩
        rfl rfl (Int.le_refl _)
  exact h

/-- C9: on success `read_from` does not return the number of bytes read.  When the
27 bytes of `GET / HTTP/1.1\r\nHost: x\r\n\r\n` arrive in a single `recv`, it returns 0:
`slen` is only decreased for the pieces before the last one. -/
theorem read_from_returns_zero :
    "GET / HTTP/1.1\r\nHost: x\r\n\r\n".toList.length = 27
      ∧ (read_from [Recv.bytes "GET / HTTP/1.1\r\nHost: x\r\n\r\n".toList]
          (List.replicate 10240 'z') 10239).ret = 0 := by
  refine ⟨by decide, ?_⟩
  have := (read_from_deliver ["GET / HTTP/1.1\r\nHost: x\r\n\r\n".toList]
    "GET / HTTP/1.1\r\nHost: x\r\n\r\n".toList (List.replicate 10240 'z') 10239
    (by decide) (by decide)).2
  simp only [List.map_cons, List.map_nil] at this
  rw [this]
  rfl

/-- C10.  For every `max_len ≥ 1` and every sequence of `recv` results in which each
call returns at most the length it was asked for: at every call the length asked for is
not negative and the bytes accumulated before and after the call do not exceed
`max_len`; and the offset at which the string terminator is stored lies in
`[0, max_len)`. -/
theorem read_from_in_bounds (script : List Recv) (buf : Mem) (max_len : Int)
    (hlen : 1 ≤ max_len)
    (hhon : ∀ c ∈ (read_from script buf max_len).calls, c.readlen ≤ c.slen) :
    (∀ c ∈ (read_from script buf max_len).calls,
        0 ≤ c.slen ∧ (c.ptr : Int) ≤ max_len ∧ (c.ptr : Int) + c.readlen ≤ max_len)
      ∧ ∀ i, (read_from script buf max_len).term = some i → 0 ≤ (i : Int) ∧ (i : Int) < max_len := by
  have h : (∀ c ∈ (read_from script buf max_len).calls, InBounds max_len c)
      ∧ ∀ i, (read_from script buf max_len).term = some i → (i : Int) < max_len := by
    cases script with
    | nil =>
      simp only [read_from, read_finish_calls]
      refine ⟨?_, read_finish_term _ _ _ _ _ _ hlen (by simp; omega)⟩
      intro c hc
      simp only [List.mem_singleton] at hc
      subst hc
      exact ⟨by simp only; omega, by simp only; omega, by simp only; omega⟩
    | cons r rest =>
      have hr : r.readlen ≤ max_len := by
        obtain ⟨more, hm⟩ := read_loop_calls max_len rest (recv_store buf 0 r) 0 max_len r
          [⟨0, max_len, r.readlen⟩]
        exact hhon ⟨0, max_len, r.readlen⟩ (by simp only [read_from]; rw [hm]; simp)
      simp only [read_from] at hhon ⊢
      apply read_loop_in_bounds max_len hlen rest _ 0 max_len r _ hhon (by simp) (by simp)
        (by omega)
      intro c hc
      simp only [List.mem_singleton] at hc
      subst hc
      exact ⟨by simp only; omega, by simp only; omega, by simp only; omega⟩
  exact ⟨h.1, fun i hi => ⟨Int.ofNat_nonneg i, h.2 i hi⟩⟩

/-- C10, witness: the buffer and `max_len` of `process_connection`, the request
`GET / HTTP/1.1\r\nHost: x\r\n\r\n` arriving in two pieces. -/
theorem read_from_in_bounds_witness :
    (1 : Int) ≤ 10239
      ∧ (∀ c ∈ (read_from [Recv.bytes "GET / HTTP/1.1\r\nHo".toList,
            Recv.bytes "st: x\r\n\r\n".toList] (List.replicate 10240 'z') 10239).calls,
          c.readlen ≤ c.slen)
      ∧ (∀ c ∈ (read_from [Recv.bytes "GET / HTTP/1.1\r\nHo".toList,
            Recv.bytes "st: x\r\n\r\n".toList] (List.replicate 10240 'z') 10239).calls,
          0 ≤ c.slen ∧ (c.ptr : Int) ≤ 10239 ∧ (c.ptr : Int) + c.readlen ≤ 10239)
      ∧ ∀ i, (read_from [Recv.bytes "GET / HTTP/1.1\r\nHo".toList,
            Recv.bytes "st: x\r\n\r\n".toList] (List.replicate 10240 'z') 10239).term = some i →
          0 ≤ (i : Int) ∧ (i : Int) < 10239 :=
  ⟨by decide, by decide,
    read_from_in_bounds [Recv.bytes "GET / HTTP/1.1\r\nHo".toList,
      Recv.bytes "st: x\r\n\r\n".toList] (List.replicate 10240 'z') 10239 (by decide)
      (by decide)⟩

/-! ## The reply and the closing of the connection -/

/-- C5 (as amended).  For every request that ends with a line feed and whose first line
is `COMMAND SP TARGET SP VERSION CR LF`, the three tokens non-empty and free of space,
CR, LF and NUL, whatever follows the first line as long as it holds at most 255 carriage
returns, and for every way `recv` hands the request over whole, in non-empty pieces none
of which but the last ends with a line feed: the request is parsed with every store into
`infos` within its 256 slots, and when the allocations and both sends succeed,
`process_connection` hands to `send` exactly the status line and then the body, nothing
else, which together are `HTTP/1.1 200 OK\r\n\r\nHello!\r\n`; and when each send
transmits its whole message, these are the bytes put on the connection.  The reply is
the same for every command, target, version and header list. -/
theorem process_connection_fixed_reply (C T V tail : List Char) (chunks : List (List Char))
    (buf : Mem) (sendres : Nat → Int)
    (hC : Token C) (hT : Token T) (hV : Token V)
    (hlf : (request_line C T V ++ tail).getLast? = some '\n')
    (hk : tail.count '\r' ≤ 255)
    (hd : Delivers chunks (request_line C T V ++ tail))
    (h0 : sendres 0 ≠ -1) (h1 : sendres 1 ≠ -1) :
    (∃ m req, analyze_request true (read_from (chunks.map Recv.bytes) buf 10239).buf
        = some (m, some req)
      ∧ ∀ e ∈ req.infos, e.1 < 256)
    ∧ ∃ run, process_connection (some buf) (chunks.map Recv.bytes) true sendres = some run
      ∧ sent_messages run = [status_line, reply_body]
      ∧ (sent_messages run).flatten = "HTTP/1.1 200 OK\r\n\r\nHello!\r\n".toList
      ∧ (sendres 0 = status_line.length → sendres 1 = reply_body.length →
          wire run = "HTTP/1.1 200 OK\r\n\r\nHello!\r\n".toList) := by
  obtain ⟨hread, m, req, hparse, hslots⟩ :=
    read_then_analyze_line C T V tail chunks buf 10239 hC hT hV hlf hk hd
  refine ⟨⟨m, req, hparse, hslots⟩,
    _, process_connection_reply buf _ sendres m req hread hparse, ?_, ?_, ?_⟩
  · rw [send_reply_ok sendres h0 h1]; rfl
  · rw [send_reply_ok sendres h0 h1]; rfl
  · intro e0 e1
    rw [send_reply_ok sendres h0 h1, e0, e1]
    rfl

/-- C5, witness: the request `GET / HTTP/1.1\r\nHost: x\r\n\r\n` received in one piece,
both sends transmitting their whole message (19 and 8 bytes). -/
theorem process_connection_fixed_reply_witness :
    Token "GET".toList ∧ Token "/".toList ∧ Token "HTTP/1.1".toList
      ∧ (request_line "GET".toList "/".toList "HTTP/1.1".toList ++ "Host: x\r\n\r\n".toList).getLast?
          = some '\n'
      ∧ "Host: x\r\n\r\n".toList.count '\r' ≤ 255
      ∧ Delivers ["GET / HTTP/1.1\r\nHost: x\r\n\r\n".toList]
          (request_line "GET".toList "/".toList "HTTP/1.1".toList ++ "Host: x\r\n\r\n".toList)
      ∧ (fun i : Nat => if i = 0 then (19 : Int) else 8) 0 ≠ -1
      ∧ (fun i : Nat => if i = 0 then (19 : Int) else 8) 1 ≠ -1
      ∧ (∃ m req, analyze_request true
            (read_from [Recv.bytes "GET / HTTP/1.1\r\nHost: x\r\n\r\n".toList]
              (List.replicate 10240 'z') 10239).buf = some (m, some req)
          ∧ ∀ e ∈ req.infos, e.1 < 256)
      ∧ ∃ run, process_connection (some (List.replicate 10240 'z'))
            [Recv.bytes "GET / HTTP/1.1\r\nHost: x\r\n\r\n".toList] true
            (fun i => if i = 0 then 19 else 8) = some run
        ∧ sent_messages run = [status_line, reply_body]
        ∧ (sent_messages run).flatten = "HTTP/1.1 200 OK\r\n\r\nHello!\r\n".toList
        ∧ ((fun i : Nat => if i = 0 then (19 : Int) else 8) 0 = status_line.length →
            (fun i : Nat => if i = 0 then (19 : Int) else 8) 1 = reply_body.length →
            wire run = "HTTP/1.1 200 OK\r\n\r\nHello!\r\n".toList) :=
  ⟨by decide, by decide, by decide, by decide, by decide, by decide, by decide, by decide,
    process_connection_fixed_reply "GET".toList "/".toList "HTTP/1.1".toList
      "Host: x\r\n\r\n".toList ["GET / HTTP/1.1\r\nHost: x\r\n\r\n".toList]
      (List.replicate 10240 'z') (fun i => if i = 0 then 19 else 8)
      (by decide) (by decide) (by decide) (by decide) (by decide) (by decide) (by decide)
      (by decide)⟩

/-- C5, counterexample to the claim as stated: two requests that end with a line feed,
whose first line carries a command, a target and a version, and that get no reply.
The first is well formed and 10263 bytes long: `recv` returns its first 10239 bytes, as
many as `read_from` asks for, the next `recv` is asked for 0 bytes and returns 0, so
`read_from` leaves the empty string and `analyze_request` fails.  The second has the
command `G\0`: the string in the buffer stops after `G` and `analyze_request` fails. -/
theorem process_connection_no_reply :
    (Token "GET".toList ∧ Token "/".toList ∧ Token "HTTP/1.1".toList
      ∧ Header ("A".toList, List.replicate 10240 'b')
      ∧ (http_text "GET".toList "/".toList "HTTP/1.1".toList
          [("A".toList, List.replicate 10240 'b')] true).getLast? = some '\n'
      ∧ (http_text "GET".toList "/".toList "HTTP/1.1".toList
          [("A".toList, List.replicate 10240 'b')] true).length = 10263
      ∧ (read_from [Recv.bytes ((http_text "GET".toList "/".toList "HTTP/1.1".toList
              [("A".toList, List.replicate 10240 'b')] true).take 10239), Recv.bytes []]
            (List.replicate 10240 'z') 10239).calls = [⟨0, 10239, 10239⟩, ⟨10239, 0, 0⟩]
      ∧ (process_connection (some (List.replicate 10240 'z'))
            [Recv.bytes ((http_text "GET".toList "/".toList "HTTP/1.1".toList
              [("A".toList, List.replicate 10240 'b')] true).take 10239), Recv.bytes []]
            true (fun i => if i = 0 then 19 else 8)).map sent_messages = some [])
    ∧ ClaimedToken ['G', NUL] ∧ ClaimedToken "/".toList ∧ ClaimedToken "HTTP/1.1".toList
      ∧ (http_text ['G', NUL] "/".toList "HTTP/1.1".toList [] false).getLast? = some '\n'
      ∧ (process_connection (some (List.replicate 10240 'z'))
            [Recv.bytes (http_text ['G', NUL] "/".toList "HTTP/1.1".toList [] false)]
            true (fun i => if i = 0 then 19 else 8)).map sent_messages = some [] := by
  have key : ∀ b : List Char,
      http_text "GET".toList "/".toList "HTTP/1.1".toList [("A".toList, b)] true
        = "GET / HTTP/1.1\r\nA: ".toList ++ b ++ "\r\n\r\n".toList := by
    intro b
    simp [http_text, request_line, tail_text, header_line]
  have hb : List.replicate 10240 'b'
      = List.replicate 10219 'b' ++ ['b'] ++ List.replicate 20 'b' := by
    rw [← List.replicate_succ', ← List.replicate_add]
  have hlen : ("GET / HTTP/1.1\r\nA: ".toList ++ List.replicate 10219 'b' ++ ['b']).length
      = 10239 := by
    rw [List.length_append, List.length_append, List.length_replicate]
    rfl
  have hpiece : (http_text "GET".toList "/".toList "HTTP/1.1".toList
        [("A".toList, List.replicate 10240 'b')] true).take 10239
      = "GET / HTTP/1.1\r\nA: ".toList ++ List.replicate 10219 'b' ++ ['b'] := by
    rw [key, hb]
    have e : ∀ x y : List Char,
        "GET / HTTP/1.1\r\nA: ".toList ++ (x ++ ['b'] ++ y) ++ "\r\n\r\n".toList
          = ("GET / HTTP/1.1\r\nA: ".toList ++ x ++ ['b']) ++ (y ++ "\r\n\r\n".toList) := by
      intro x y
      simp
    rw [e]
    exact List.take_left' hlen
  have hfull := read_from_full
    ("GET / HTTP/1.1\r\nA: ".toList ++ List.replicate 10219 'b' ++ ['b'])
    (List.replicate 10240 'z') 10239 (by intro h; rw [h] at hlen; cases hlen)
    (by rw [List.getLast?_concat]; decide)
  rw [hlen] at hfull
  refine ⟨⟨by decide, by decide, by decide, ?_, (http_text_buffer _ _ _ _ _ []).2, ?_, ?_, ?_⟩,
    by decide, by decide, by decide, by decide, ?_⟩
  · exact ⟨⟨by decide, by decide⟩, fun c hc => by rw [List.eq_of_mem_replicate hc]; decide⟩
  · rw [key, List.length_append, List.length_append, List.length_replicate]
    rfl
  · rw [hpiece, hfull]
    rfl
  · rw [hpiece, process_connection_no_request _ _ _
      (NUL :: ("ET / HTTP/1.1\r\nA: ".toList ++ List.replicate 10219 'b' ++ ['b']
        ++ List.drop 10239 (List.replicate 10240 'z')))]
    · rfl
    · rw [hfull]; decide
    · rw [hfull]
      exact analyze_request_empty _
  · have hr := read_from_deliver [http_text ['G', NUL] "/".toList "HTTP/1.1".toList [] false] _
      (List.replicate 10240 'z') 10239 (Delivers_single _ (http_text_ne_nil _ _ _ _ _))
      (http_text_buffer _ _ _ _ _ []).2
    simp only [List.map_cons, List.map_nil] at hr
    have e : (http_text ['G', NUL] "/".toList "HTTP/1.1".toList [] false).dropLast
        = ['G'] ++ NUL :: " / HTTP/1.1\r".toList := by decide
    have h := analyze_request_one_token ['G']
      (" / HTTP/1.1\r".toList ++ NUL :: List.drop
        (http_text ['G', NUL] "/".toList "HTTP/1.1".toList [] false).length
        (List.replicate 10240 'z')) (by decide) (by decide)
    simp only [List.append_assoc, List.cons_append, List.nil_append] at h
    rw [process_connection_no_request _ _ _ _ (by rw [hr.2]; decide)
      (by rw [hr.1, e]; exact h)]
    rfl

/-- C6: on the success path the connection is closed twice.  For the request
`GET / HTTP/1.1\r\nHost: x\r\n\r\n` with both sends succeeding, the run of
`process_connection` contains two `close(connect_d)`: the one after `send_reply` and the
one under the label `failed`, into which the success path falls. -/
theorem process_connection_closes_twice :
    (process_connection (some (List.replicate 10240 'z'))
        [Recv.bytes "GET / HTTP/1.1\r\nHost: x\r\n\r\n".toList] true
        (fun i => if i = 0 then 19 else 8)).map closes = some 2 := by
  obtain ⟨hread, m, req, hparse, _⟩ :=
    read_then_analyze "GET".toList "/".toList "HTTP/1.1".toList [("Host".toList, "x".toList)] true
      ["GET / HTTP/1.1\r\nHost: x\r\n\r\n".toList] (List.replicate 10240 'z') 10239
      (by decide) (by decide) (by decide) (by decide) (by decide)
  simp only [List.map_cons, List.map_nil] at hread hparse
  rw [process_connection_reply _ _ _ m req hread hparse]
  have := closes_send_reply (fun i => if i = 0 then 19 else 8)
  simp only [closes, List.count_append, Option.map_some'] at this ⊢
  rw [this]
  rfl

end HttpServer
